import Mathlib

/-!
Verification of the decompose/recompose engine of
`speckle/serialization/base_object_serializer.py`.

The Python module is shallowly embedded as follows.

* `Value` is the tagged union of dynamic values crossing the serializer
  boundary: primitives (`int`, `str`, `bool`), `None`, lists, dicts
  (string-keyed, insertion-ordered, modelled as association lists) and
  `Base` objects.  `Base` is imported from `speckle.objects.base`, which is
  not part of the sources under verification; following its specified
  boundary (stable ordered enumeration of property names plus indexed
  get/set) a `Base` is modelled as an insertion-ordered association list of
  properties.  Python floats, tuples, sets and opaque objects carrying a
  `dict()` capability are outside the model.
* Mutable serializer attributes (`detach_lineage`, `lineage`,
  `family_tree`, `closure_table`) become an explicit state record `SState`
  threaded through the traversal.  `uuid4().hex` produces a fresh token per
  nesting level whose only used property is uniqueness within a call; it is
  modelled by a counter `ctr` drawn down monotonically (each push uses the
  current counter value as the fresh token).
* The write transports only record `save_object(id, serialized_object)`
  calls; a configuration with `nw` write transports is modelled by the save
  trace `saves : List (Nat × String × String)` (transport index, id,
  payload), appended in the order the Python loop performs the calls.
* `json.dumps` is implemented character-for-character (default separators
  `", "` and `": "`, `ensure_ascii`) and `hash_obj` is a full SHA-256 over
  the UTF-8 encoding of the dump, hex-truncated to 32 characters, exactly
  as in the source.
* On the read side, `AbstractTransport.get_object` followed by
  `json.loads` is folded into `ReadTransport.get : String → Option Value`
  returning the already-decoded record (the JSON re-parsing step is elided;
  `None`/empty answers become `none`).  `recompose_base` takes a fuel
  parameter because it recurses into fetched records, which is not
  structural; all lemmas use an explicitly sufficient fuel.
-/

/-- Dynamic values crossing the serializer boundary (see module comment). -/
inductive Value where
  | int (n : Int)
  | str (s : String)
  | bool (b : Bool)
  | null
  | list (xs : List Value)
  | dict (es : List (String × Value))
  | base (props : List (String × Value))

mutual

def beqV : Value → Value → Bool
  | .int a, .int b => a == b
  | .str a, .str b => a == b
  | .bool a, .bool b => a == b
  | .null, .null => true
  | .list xs, .list ys => beqL xs ys
  | .dict es, .dict fs => beqE es fs
  | .base ps, .base qs => beqE ps qs
  | _, _ => false

def beqL : List Value → List Value → Bool
  | [], [] => true
  | x :: xs, y :: ys => beqV x y && beqL xs ys
  | _, _ => false

def beqE : List (String × Value) → List (String × Value) → Bool
  | [], [] => true
  | (k, v) :: xs, (l, w) :: ys => k == l && beqV v w && beqE xs ys
  | _, _ => false

end

mutual

theorem beqV_iff : ∀ a b, beqV a b = true ↔ a = b
  | .int _, .int _ => by simp [beqV]
  | .int _, .str _ => by simp [beqV]
  | .int _, .bool _ => by simp [beqV]
  | .int _, .null => by simp [beqV]
  | .int _, .list _ => by simp [beqV]
  | .int _, .dict _ => by simp [beqV]
  | .int _, .base _ => by simp [beqV]
  | .str _, .int _ => by simp [beqV]
  | .str _, .str _ => by simp [beqV]
  | .str _, .bool _ => by simp [beqV]
  | .str _, .null => by simp [beqV]
  | .str _, .list _ => by simp [beqV]
  | .str _, .dict _ => by simp [beqV]
  | .str _, .base _ => by simp [beqV]
  | .bool _, .int _ => by simp [beqV]
  | .bool _, .str _ => by simp [beqV]
  | .bool _, .bool _ => by simp [beqV]
  | .bool _, .null => by simp [beqV]
  | .bool _, .list _ => by simp [beqV]
  | .bool _, .dict _ => by simp [beqV]
  | .bool _, .base _ => by simp [beqV]
  | .null, .int _ => by simp [beqV]
  | .null, .str _ => by simp [beqV]
  | .null, .bool _ => by simp [beqV]
  | .null, .null => by simp [beqV]
  | .null, .list _ => by simp [beqV]
  | .null, .dict _ => by simp [beqV]
  | .null, .base _ => by simp [beqV]
  | .list _, .int _ => by simp [beqV]
  | .list _, .str _ => by simp [beqV]
  | .list _, .bool _ => by simp [beqV]
  | .list _, .null => by simp [beqV]
  | .list xs, .list ys => by simp [beqV, beqL_iff xs ys]
  | .list _, .dict _ => by simp [beqV]
  | .list _, .base _ => by simp [beqV]
  | .dict _, .int _ => by simp [beqV]
  | .dict _, .str _ => by simp [beqV]
  | .dict _, .bool _ => by simp [beqV]
  | .dict _, .null => by simp [beqV]
  | .dict _, .list _ => by simp [beqV]
  | .dict es, .dict fs => by simp [beqV, beqE_iff es fs]
  | .dict _, .base _ => by simp [beqV]
  | .base _, .int _ => by simp [beqV]
  | .base _, .str _ => by simp [beqV]
  | .base _, .bool _ => by simp [beqV]
  | .base _, .null => by simp [beqV]
  | .base _, .list _ => by simp [beqV]
  | .base _, .dict _ => by simp [beqV]
  | .base ps, .base qs => by simp [beqV, beqE_iff ps qs]

theorem beqL_iff : ∀ a b, beqL a b = true ↔ a = b
  | [], [] => by simp [beqL]
  | [], _ :: _ => by simp [beqL]
  | _ :: _, [] => by simp [beqL]
  | x :: xs, y :: ys => by simp [beqL, beqV_iff x y, beqL_iff xs ys]

theorem beqE_iff : ∀ a b, beqE a b = true ↔ a = b
  | [], [] => by simp [beqE]
  | [], _ :: _ => by simp [beqE]
  | _ :: _, [] => by simp [beqE]
  | (k, v) :: xs, (l, w) :: ys => by
      simp [beqE, beqV_iff v w, beqE_iff xs ys, Prod.ext_iff, and_assoc]

end

instance : DecidableEq Value := fun a b => decidable_of_iff _ (beqV_iff a b)

/-- Python truthiness (`not value` is `!falsy value = false`); `Base`
instances are truthy (plain objects with no `__bool__`/`__len__`). -/
def falsy : Value → Bool
  | .int n => n == 0
  | .str s => s == ""
  | .bool b => !b
  | .null => true
  | .list xs => xs.isEmpty
  | .dict es => es.isEmpty
  | .base _ => false

/-- `isinstance(value, PRIMITIVES)` for `PRIMITIVES = (int, float, str, bool)`. -/
def isPrim : Value → Bool
  | .int _ => true
  | .str _ => true
  | .bool _ => true
  | _ => false

/-! ### `json.dumps` (default options) and `hash_obj` -/

def hexDigit (n : Nat) : Char :=
  if n < 10 then Char.ofNat (48 + n) else Char.ofNat (87 + n)

/-- One character of Python's `ensure_ascii` JSON string escaping. -/
def escChar (c : Char) : List Char :=
  let n := c.toNat
  if c = '"' then ['\\', '"']
  else if c = '\\' then ['\\', '\\']
  else if c = '\n' then ['\\', 'n']
  else if c = '\t' then ['\\', 't']
  else if c = '\r' then ['\\', 'r']
  else if n = 8 then ['\\', 'b']
  else if n = 12 then ['\\', 'f']
  else if n < 32 ∨ n > 126 then
    ['\\', 'u', hexDigit (n / 4096 % 16), hexDigit (n / 256 % 16), hexDigit (n / 16 % 16),
     hexDigit (n % 16)]
  else [c]

/-- Python JSON string encoding (BMP code points; the model's strings stay
well below the surrogate-pair range). -/
def encStr (s : String) : String :=
  "\"" ++ String.mk (s.data.flatMap escChar) ++ "\""

mutual

/-- `json.dumps` with default separators `", "` / `": "`.  `Base` values
never reach `json.dumps` in the source (records are plain dicts by the
time they are serialized); the placeholder keeps the function total. -/
def dumps : Value → String
  | .int n => toString n
  | .str s => encStr s
  | .bool b => if b then "true" else "false"
  | .null => "null"
  | .list xs => "[" ++ dumpsList xs ++ "]"
  | .dict es => "\x7b" ++ dumpsEntries es ++ "\x7d"
  | .base _ => "<unserializable>"

def dumpsList : List Value → String
  | [] => ""
  | [x] => dumps x
  | x :: y :: r => dumps x ++ ", " ++ dumpsList (y :: r)

def dumpsEntries : List (String × Value) → String
  | [] => ""
  | [(k, v)] => encStr k ++ ": " ++ dumps v
  | (k, v) :: e :: r => encStr k ++ ": " ++ dumps v ++ ", " ++ dumpsEntries (e :: r)

end

/-! SHA-256 over lists of byte values, used by `hash_obj`. -/

def w32 : Nat := 4294967296

def rotr (n x : Nat) : Nat := ((x >>> n) ||| (x <<< (32 - n))) % w32

def shaCh (x y z : Nat) : Nat := (x &&& y) ^^^ ((x ^^^ 4294967295) &&& z)

def shaMaj (x y z : Nat) : Nat := (x &&& y) ^^^ (x &&& z) ^^^ (y &&& z)

def bsig0 (x : Nat) : Nat := rotr 2 x ^^^ rotr 13 x ^^^ rotr 22 x

def bsig1 (x : Nat) : Nat := rotr 6 x ^^^ rotr 11 x ^^^ rotr 25 x

def ssig0 (x : Nat) : Nat := rotr 7 x ^^^ rotr 18 x ^^^ (x >>> 3)

def ssig1 (x : Nat) : Nat := rotr 17 x ^^^ rotr 19 x ^^^ (x >>> 10)

def shaK : List Nat :=
  [1116352408, 1899447441, 3049323471, 3921009573, 961987163, 1508970993,
   2453635748, 2870763221, 3624381080, 310598401, 607225278, 1426881987,
   1925078388, 2162078206, 2614888103, 3248222580, 3835390401, 4022224774,
   264347078, 604807628, 770255983, 1249150122, 1555081692, 1996064986,
   2554220882, 2821834349, 2952996808, 3210313671, 3336571891, 3584528711,
   113926993, 338241895, 666307205, 773529912, 1294757372, 1396182291,
   1695183700, 1986661051, 2177026350, 2456956037, 2730485921, 2820302411,
   3259730800, 3345764771, 3516065817, 3600352804, 4094571909, 275423344,
   430227734, 506948616, 659060556, 883997877, 958139571, 1322822218,
   1537002063, 1747873779, 1955562222, 2024104815, 2227730452, 2361852424,
   2428436474, 2756734187, 3204031479, 3329325298]

def utf8Char (n : Nat) : List Nat :=
  if n < 128 then [n]
  else if n < 2048 then [192 + n / 64, 128 + n % 64]
  else if n < 65536 then [224 + n / 4096, 128 + n / 64 % 64, 128 + n % 64]
  else [240 + n / 262144, 128 + n / 4096 % 64, 128 + n / 64 % 64, 128 + n % 64]

def utf8 (s : String) : List Nat := s.data.flatMap (fun c => utf8Char c.toNat)

def leBytes : Nat → Nat → List Nat
  | 0, _ => []
  | w + 1, n => n % 256 :: leBytes w (n / 256)

def beBytes (w n : Nat) : List Nat := (leBytes w n).reverse

def shaPad (msg : List Nat) : List Nat :=
  msg ++ [128] ++ List.replicate ((55 + 64 - msg.length % 64) % 64) 0 ++ beBytes 8 (8 * msg.length)

def toWords : List Nat → List Nat
  | a :: b :: c :: d :: r => (a * 16777216 + b * 65536 + c * 256 + d) :: toWords r
  | _ => []

def chunk16Aux : List Nat → List Nat → List (List Nat)
  | cur, [] => if cur.isEmpty then [] else [cur.reverse]
  | cur, w :: r =>
      if cur.length == 15 then (w :: cur).reverse :: chunk16Aux [] r else chunk16Aux (w :: cur) r

def extendLoop : Nat → List Nat → List Nat
  | 0, acc => acc
  | n + 1, acc =>
      let t := acc.length
      let w := (ssig1 (acc.getD (t - 2) 0) + acc.getD (t - 7) 0 + ssig0 (acc.getD (t - 15) 0) +
        acc.getD (t - 16) 0) % w32
      extendLoop n (acc ++ [w])

structure Hs where
  a : Nat
  b : Nat
  c : Nat
  d : Nat
  e : Nat
  f : Nat
  g : Nat
  hh : Nat

def shaRound (st : Hs) (k w : Nat) : Hs :=
  let t1 := (st.hh + bsig1 st.e + shaCh st.e st.f st.g + k + w) % w32
  let t2 := (bsig0 st.a + shaMaj st.a st.b st.c) % w32
  ⟨(t1 + t2) % w32, st.a, st.b, st.c, (st.d + t1) % w32, st.e, st.f, st.g⟩

def shaBlock (st : Hs) (block : List Nat) : Hs :=
  let ws := extendLoop 48 block
  let s := (shaK.zip ws).foldl (fun s kw => shaRound s kw.1 kw.2) st
  ⟨(st.a + s.a) % w32, (st.b + s.b) % w32, (st.c + s.c) % w32, (st.d + s.d) % w32,
   (st.e + s.e) % w32, (st.f + s.f) % w32, (st.g + s.g) % w32, (st.hh + s.hh) % w32⟩

def shaInit : Hs :=
  ⟨1779033703, 3144134277, 1013904242, 2773480762, 1359893119, 2600822924, 528734635, 1541459225⟩

def byteHex (b : Nat) : List Char := [hexDigit (b / 16), hexDigit (b % 16)]

/-- `hashlib.sha256(s.encode()).hexdigest()`. -/
def sha256Hex (s : String) : String :=
  let st := (chunk16Aux [] (toWords (shaPad (utf8 s)))).foldl shaBlock shaInit
  String.mk (([st.a, st.b, st.c, st.d, st.e, st.f, st.g, st.hh].flatMap (beBytes 4)).flatMap byteHex)

/-- `hash_obj`: SHA-256 of the canonical JSON dump, truncated to 32 hex
characters (`hashlib.sha256(json.dumps(obj).encode()).hexdigest()[:32]`). -/
def hash_obj (v : Value) : String := (sha256Hex (dumps v)).take 32

/-! ### Serializer state and dictionary helpers -/

/-- `str.startswith(pre)` as a kernel-computable prefix test on the
character lists (`String.startsWith` itself does not reduce in the
kernel, being implemented over byte positions). -/
def chPref : List Char → List Char → Bool
  | [], _ => true
  | _ :: _, [] => false
  | a :: as, b :: bs => a == b && chPref as bs

def pyStartsWith (s pre : String) : Bool := chPref pre.data s.data

/-- Python dict assignment `d[k] = v`: replace the value at the first
occurrence of `k` keeping its position, else append at the end. -/
def alSet {α : Type} : List (String × α) → String → α → List (String × α)
  | [], k, v => [(k, v)]
  | (k', v') :: r, k, v => if k' = k then (k, v) :: r else (k', v') :: alSet r k v

/-- Python dict lookup `d[k]` / `k in d` (first occurrence). -/
def alGet {α : Type} : List (String × α) → String → Option α
  | [], _ => none
  | (k', v') :: r, k => if k' = k then some v' else alGet r k

def hasKey {α : Type} (es : List (String × α)) (k : String) : Bool := (alGet es k).isSome

/-- Lookup in the `Nat`-keyed `family_tree`. -/
def ftGet : List (Nat × List (String × Nat)) → Nat → Option (List (String × Nat))
  | [], _ => none
  | (k', v') :: r, k => if k' = k then some v' else ftGet r k

/-- `if ref not in d or d[ref] > depth: d[ref] = depth` on an inner
`family_tree` dict (minimum, first-insertion position kept). -/
def insMin : List (String × Nat) → String → Nat → List (String × Nat)
  | [], ref, d => [(ref, d)]
  | (k, v) :: r, ref, d =>
      if k = ref then (k, if v > d then d else v) :: r else (k, v) :: insMin r ref d

/-- The `family_tree[parent]` update of `detach_helper` for one parent:
create the inner dict if absent, then min-insert. -/
def ftIns : List (Nat × List (String × Nat)) → Nat → String → Nat →
    List (Nat × List (String × Nat))
  | [], t, ref, d => [(t, insMin [] ref d)]
  | (t', m) :: r, t, ref, d =>
      if t' = t then (t', insMin m ref d) :: r else (t', m) :: ftIns r t ref d

/-- The serializer's mutable attributes, plus the save-call trace of the
configured write transports and the fresh-token counter standing in for
`uuid4().hex` (see module comment).  `lineage` and `detach_lineage` keep
their most recent entry (`[-1]` in Python) at the head. -/
structure SState where
  detach_lineage : List Bool
  lineage : List Nat
  family_tree : List (Nat × List (String × Nat))
  closure_table : List (String × List (String × Int))
  saves : List (Nat × String × String)
  ctr : Nat

/-- The state at serializer construction time. -/
def initS : SState := ⟨[], [], [], [], [], 0⟩

/-- `list.pop()`; the empty case is unreachable (the guard at the top of
`traverse_base` keeps the stack nonempty). -/
def pyPopFlag : List Bool → Bool × List Bool
  | [] => (true, [])
  | b :: r => (b, r)

/-- `child_obj["id"]` on a freshly traversed record (always a dict whose
`id` is a string; the defaults are unreachable). -/
def getIdStr : Value → String
  | .dict es =>
      match alGet es "id" with
      | some (.str s) => s
      | _ => ""
  | _ => ""

/-- `detach_helper(ref_hash)`: record `ref_hash` at the current
detach-stack depth for every open ancestor, and build the reference
marker.  Python iterates `self.lineage` oldest-first while the model's
list is newest-first; the entries are updated independently so only the
(never observed) outer insertion order of `family_tree` differs. -/
def detach_helper (σ : SState) (ref_hash : String) : Value × SState :=
  let ft := σ.lineage.foldl (fun ft t => ftIns ft t ref_hash σ.detach_lineage.length)
    σ.family_tree
  (.dict [("referencedId", .str ref_hash), ("speckleType", .str "reference")],
   { σ with family_tree := ft })

/-- The entry lines of `traverse_base`: ensure the detach stack is
nonempty and push a fresh lineage token (`uuid4().hex`, modelled by the
counter); returns the pushed token. -/
def openBase (σ : SState) : Nat × SState :=
  let σ0 := if σ.detach_lineage.isEmpty then { σ with detach_lineage := [true] } else σ
  (σ0.ctr, { σ0 with lineage := σ0.ctr :: σ0.lineage, ctr := σ0.ctr + 1 })

/-- The lines of `traverse_base` after the property loop: hash the
builder, fill `id`, pop the detach flag, attach the closure dict when the
level's token accumulated entries, write to every transport when
detached, and pop the lineage.  (Factored out of the mutual block so that
the recursion is structural; `traverse_base` below is the source-shaped
composition.) -/
def sealBase (nw : Nat) (u : Nat) (bs : List (String × Value) × SState) :
    (String × Value) × SState :=
  let hash := hash_obj (.dict bs.1)
  let builder := alSet bs.1 "id" (.str hash)
  let dl := pyPopFlag bs.2.detach_lineage
  let σ2 := { bs.2 with detach_lineage := dl.2 }
  let bσ3 :=
    match ftGet σ2.family_tree u with
    | none => (builder, σ2)
    | some m =>
        let clos := m.map (fun (rd : String × Nat) =>
          (rd.1, (rd.2 : Int) - (σ2.detach_lineage.length : Int)))
        (alSet builder "__closure"
          (.dict (clos.map (fun (rd : String × Int) => (rd.1, Value.int rd.2)))),
         { σ2 with closure_table := alSet σ2.closure_table hash clos })
  let σ4 :=
    if dl.1 then
      { bσ3.2 with
        saves := bσ3.2.saves ++ (List.range nw).map (fun i => (i, hash, dumps (.dict bσ3.1))) }
    else bσ3.2
  ((hash, .dict bσ3.1), { σ4 with lineage := σ4.lineage.tail })

mutual

/-- The `while props:` loop of `traverse_base`, accumulating the
`object_builder` dict. -/
def traverse_props (nw : Nat) (σ : SState) (builder : List (String × Value)) :
    List (String × Value) → List (String × Value) × SState
  | [] => (builder, σ)
  | (prop, value) :: rest =>
      if falsy value || pyStartsWith prop "__" then traverse_props nw σ builder rest
      else
        let detach := pyStartsWith prop "@"
        match value with
        | .int n => traverse_props nw σ (alSet builder prop (.int n)) rest
        | .str s => traverse_props nw σ (alSet builder prop (.str s)) rest
        | .bool b => traverse_props nw σ (alSet builder prop (.bool b)) rest
        | .base cs =>
            let cσ := traverse_value nw σ (.base cs) detach
            if detach then
              let mσ := detach_helper cσ.2 (getIdStr cσ.1)
              traverse_props nw mσ.2 (alSet builder prop mσ.1) rest
            else traverse_props nw cσ.2 (alSet builder prop cσ.1) rest
        | .list xs =>
            let cσ := traverse_value nw σ (.list xs) false
            traverse_props nw cσ.2 (alSet builder prop cσ.1) rest
        | .dict es =>
            let cσ := traverse_value nw σ (.dict es) false
            traverse_props nw cσ.2 (alSet builder prop cσ.1) rest
        | .null =>
            -- unreachable: `None` is falsy, so the skip above fires first;
            -- `traverse_value` on `None` would return the `str(None)` fallback
            traverse_props nw σ (alSet builder prop (.str "None")) rest

/-- `BaseObjectSerializer.traverse_value`.  A `None` reaching the fallback
branch has no `dict()` capability, so the swallowed
`SerializationException` path returns `str(None) = "None"`. -/
def traverse_value (nw : Nat) (σ : SState) (obj : Value) (detach : Bool) : Value × SState :=
  match obj with
  | .int n => (.int n, σ)
  | .str s => (.str s, σ)
  | .bool b => (.bool b, σ)
  | .list xs =>
      let r := traverse_vlist nw σ xs
      (.list r.1, r.2)
  | .dict es =>
      let r := traverse_vdict nw σ es
      (.dict r.1, r.2)
  | .base cs =>
      let σ' := { σ with detach_lineage := detach :: σ.detach_lineage }
      let g := openBase σ'
      let r := sealBase nw g.1 (traverse_props nw g.2 [("id", .str "")] cs)
      (r.1.2, r.2)
  | .null => (.str "None", σ)

/-- The list comprehension `[self.traverse_value(o) for o in obj]`. -/
def traverse_vlist (nw : Nat) (σ : SState) : List Value → List Value × SState
  | [] => ([], σ)
  | x :: r =>
      let yσ := traverse_value nw σ x false
      let rσ := traverse_vlist nw yσ.2 r
      (yσ.1 :: rσ.1, rσ.2)

/-- The dict branch of `traverse_value`: primitive entries are kept,
other entries are replaced by their traversal. -/
def traverse_vdict (nw : Nat) (σ : SState) :
    List (String × Value) → List (String × Value) × SState
  | [] => ([], σ)
  | (k, v) :: r =>
      if isPrim v then
        let rσ := traverse_vdict nw σ r
        ((k, v) :: rσ.1, rσ.2)
      else
        let wσ := traverse_value nw σ v false
        let rσ := traverse_vdict nw wσ.2 r
        ((k, wσ.1) :: rσ.1, rσ.2)

end

/-- `BaseObjectSerializer.traverse_base`, with the object's ordered
property list standing for `base.get_member_names()` plus indexed reads:
open the level, run the property loop, seal the level. -/
def traverse_base (nw : Nat) (σ : SState) (props : List (String × Value)) :
    (String × Value) × SState :=
  let g := openBase σ
  sealBase nw g.1 (traverse_props nw g.2 [("id", .str "")] props)

/-- The `Base` branch of `traverse_value` is exactly a push of the detach
flag followed by `traverse_base` (the factoring above is definitional). -/
theorem traverse_value_base (nw : Nat) (σ : SState) (cs : List (String × Value))
    (detach : Bool) :
    traverse_value nw σ (.base cs) detach =
      (let r := traverse_base nw { σ with detach_lineage := detach :: σ.detach_lineage } cs
       (r.1.2, r.2)) := rfl

/-- `BaseObjectSerializer.write_json`: reset the traversal attributes
(`__reset_writer`), mark the root for detachment, traverse, and return
`(hash, json.dumps(obj))`.  The save trace and the fresh-token counter are
not serializer attributes and survive the reset. -/
def write_json (nw : Nat) (σ : SState) (props : List (String × Value)) :
    (String × String) × SState :=
  let σr := { σ with detach_lineage := [true], lineage := [], family_tree := [],
                     closure_table := [] }
  let r := traverse_base nw σr props
  ((r.1.1, dumps r.1.2), r.2)

/-! ### Recomposition -/

/-- The read side of `AbstractTransport`: `get_object` composed with
`json.loads` (see module comment), plus the transport's diagnostic name. -/
structure ReadTransport where
  name : String
  get : String → Option Value

/-- Failures surfacing from recomposition: `SpeckleException`s with their
message, crashes of the Python runtime on ill-shaped input
(`TypeError`-class), and the fuel-exhaustion artifact of the embedding. -/
inductive PyErr where
  | speckle (msg : String)
  | typeErr
  | fuelOut
deriving DecidableEq

/-- Python `len(...)` on the values recomposition applies it to. -/
def pyLen : Value → Except PyErr Int
  | .dict es => .ok es.length
  | .list xs => .ok xs.length
  | .str s => .ok s.length
  | _ => .error .typeErr

/-- Python `dict.pop(k)` (on the unique-key dicts Python produces). -/
def alPop {α : Type} : List (String × α) → String → List (String × α)
  | [], _ => []
  | (k', v') :: r, k => if k' = k then r else (k', v') :: alPop r k

/-- `"referencedId" in value` for a non-primitive `value`: key test on
dicts, element membership on lists, `TypeError` otherwise (e.g. `None`). -/
def hasRefId : Value → Except PyErr Bool
  | .dict es => .ok (hasKey es "referencedId")
  | .list xs => .ok (xs.contains (.str "referencedId"))
  | _ => .error .typeErr

/-- `value["referencedId"]` after a successful membership test: dict
lookup, `TypeError` on lists (string index) and anything else. -/
def getRefId : Value → Except PyErr Value
  | .dict es =>
      match alGet es "referencedId" with
      | some v => .ok v
      | none => .error .typeErr
  | _ => .error .typeErr

/-- The resolution-error message of `recompose_base`, verbatim. -/
def refErrMsg (ref_hash tname : String) : String :=
  "Could not find the referenced child object of id `" ++ ref_hash ++
    "` in the given read transport: " ++ tname

/-- The configuration-error message of `recompose_base`, verbatim. -/
def noTransportMsg : String := "Cannot resolve reference - no read transport is defined"

mutual

/-- `BaseObjectSerializer.recompose_base`.  Alongside the result it
returns the trace of ids requested from the read transport (in call
order).  The first fuel argument is an embedding artifact (recursion into
fetched records is not structural); every lemma below supplies an
explicitly sufficient fuel. -/
def recompose_base (rt : Option ReadTransport) :
    Nat → Value → Except PyErr (Option Value) × List String
  | 0, _ => (.error .fuelOut, [])
  | fuel + 1, obj =>
      if falsy obj then (.ok none, [])
      else
        match obj with
        | .dict es =>
            if hasKey es "__closure" then
              match rt with
              | none => (.error (.speckle noTransportMsg), [])
              | some _ =>
                  match pyLen ((alGet es "__closure").getD .null) with
                  | .error e => (.error e, [])
                  | .ok n =>
                      recompose_props rt fuel [("totalChildrenCount", .int n)]
                        (alPop es "__closure")
            else recompose_props rt fuel [] es
        | _ => (.error .typeErr, [])

/-- The property loop of `recompose_base`, accumulating the rebuilt
`Base` (spec-modelled object boundary: indexed set on an ordered
association list). -/
def recompose_props (rt : Option ReadTransport) :
    Nat → List (String × Value) → List (String × Value) →
    Except PyErr (Option Value) × List String
  | 0, _, _ => (.error .fuelOut, [])
  | _ + 1, acc, [] => (.ok (some (.base acc)), [])
  | fuel + 1, acc, (prop, value) :: rest =>
      if isPrim value then recompose_props rt fuel (alSet acc prop value) rest
      else
        match hasRefId value with
        | .error e => (.error e, [])
        | .ok true =>
            match getRefId value with
            | .error e => (.error e, [])
            | .ok rv =>
                match rv with
                | .str ref_hash =>
                    match rt with
                    | none => (.error .typeErr, [])
                    | some r =>
                        match r.get ref_hash with
                        | none => (.error (.speckle (refErrMsg ref_hash r.name)), [ref_hash])
                        | some child =>
                            let cr := recompose_base rt fuel child
                            match cr.1 with
                            | .error e => (.error e, ref_hash :: cr.2)
                            | .ok co =>
                                let rr := recompose_props rt fuel
                                  (alSet acc prop (co.getD .null)) rest
                                (rr.1, ref_hash :: cr.2 ++ rr.2)
                | _ => (.error .typeErr, [])
        | .ok false =>
            match handle_value rt fuel value with
            | (.error e, g) => (.error e, g)
            | (.ok w, g) =>
                let rr := recompose_props rt fuel (alSet acc prop w) rest
                (rr.1, g ++ rr.2)

/-- `BaseObjectSerializer.handle_value`.  A value matching none of the
`isinstance` tests (e.g. `None`) falls off the end of the Python function
and yields `None`. -/
def handle_value (rt : Option ReadTransport) :
    Nat → Value → Except PyErr Value × List String
  | 0, _ => (.error .fuelOut, [])
  | fuel + 1, obj =>
      match obj with
      | .int n => (.ok (.int n), [])
      | .str s => (.ok (.str s), [])
      | .bool b => (.ok (.bool b), [])
      | .list xs =>
          match handle_list rt fuel xs with
          | (.error e, g) => (.error e, g)
          | (.ok ys, g) => (.ok (.list ys), g)
      | .dict es =>
          if hasKey es "speckleType" then
            let r := recompose_base rt fuel (.dict es)
            (match r.1 with
             | .error e => .error e
             | .ok co => .ok (co.getD .null), r.2)
          else
            match handle_entries rt fuel es with
            | (.error e, g) => (.error e, g)
            | (.ok fs, g) => (.ok (.dict fs), g)
      | .null => (.ok .null, [])
      | .base _ => (.ok .null, [])

/-- `[self.handle_value(o) for o in obj]` (exceptions propagate). -/
def handle_list (rt : Option ReadTransport) :
    Nat → List Value → Except PyErr (List Value) × List String
  | 0, _ => (.error .fuelOut, [])
  | _ + 1, [] => (.ok [], [])
  | fuel + 1, x :: r =>
      match handle_value rt fuel x with
      | (.error e, g) => (.error e, g)
      | (.ok y, g) =>
          match handle_list rt fuel r with
          | (.error e, g') => (.error e, g ++ g')
          | (.ok ys, g') => (.ok (y :: ys), g ++ g')

/-- The dict branch of `handle_value`: primitive entries kept, other
entries replaced by their handling. -/
def handle_entries (rt : Option ReadTransport) :
    Nat → List (String × Value) → Except PyErr (List (String × Value)) × List String
  | 0, _ => (.error .fuelOut, [])
  | _ + 1, [] => (.ok [], [])
  | fuel + 1, (k, v) :: r =>
      if isPrim v then
        match handle_entries rt fuel r with
        | (.error e, g) => (.error e, g)
        | (.ok fs, g) => (.ok ((k, v) :: fs), g)
      else
        match handle_value rt fuel v with
        | (.error e, g) => (.error e, g)
        | (.ok w, g) =>
            match handle_entries rt fuel r with
            | (.error e, g') => (.error e, g ++ g')
            | (.ok fs, g') => (.ok ((k, w) :: fs), g ++ g')

end

/-! ### A pure mirror of the traversal

The functions below recompute, without the threaded state, exactly what
one `traverse_base` call produces: the final record, its hash, the
sequence of detach events it generates (hash and depth relative to the
level, in chronological order) and the sequence of logical save calls
(hash and record, in order; the per-transport fan-out is applied on top).
The simulation lemmas further down prove them equal to the stateful
traversal. -/

/-- Depth shift of an event list across one object-nesting level. -/
def shift1 (evs : List (String × Nat)) : List (String × Nat) :=
  evs.map (fun e => (e.1, e.2 + 1))

/-- Minimum-merge of an event list into an inner `family_tree` dict. -/
def mergeMin (d : List (String × Nat)) (evs : List (String × Nat)) : List (String × Nat) :=
  evs.foldl (fun d e => insMin d e.1 e.2) d

/-- The reference marker of `detach_helper`. -/
def refMarker (ref_hash : String) : Value :=
  .dict [("referencedId", .str ref_hash), ("speckleType", .str "reference")]

mutual

/-- Pure mirror of `traverse_props`: returns the builder, the detach
events (depth 1 = detached direct child of this level) and the logical
saves of the property loop. -/
def flatProps (builder : List (String × Value)) :
    List (String × Value) →
    List (String × Value) × List (String × Nat) × List (String × Value)
  | [] => (builder, [], [])
  | (prop, value) :: rest =>
      if falsy value || pyStartsWith prop "__" then flatProps builder rest
      else
        let detach := pyStartsWith prop "@"
        match value with
        | .int n => flatProps (alSet builder prop (.int n)) rest
        | .str s => flatProps (alSet builder prop (.str s)) rest
        | .bool b => flatProps (alSet builder prop (.bool b)) rest
        | .base cs =>
            let c := flatValue (.base cs) detach
            if detach then
              let ref := getIdStr c.1
              let r := flatProps (alSet builder prop (refMarker ref)) rest
              (r.1, c.2.1 ++ [(ref, 1)] ++ r.2.1, c.2.2 ++ r.2.2)
            else
              let r := flatProps (alSet builder prop c.1) rest
              (r.1, c.2.1 ++ r.2.1, c.2.2 ++ r.2.2)
        | .list xs =>
            let c := flatValue (.list xs) false
            let r := flatProps (alSet builder prop c.1) rest
            (r.1, c.2.1 ++ r.2.1, c.2.2 ++ r.2.2)
        | .dict es =>
            let c := flatValue (.dict es) false
            let r := flatProps (alSet builder prop c.1) rest
            (r.1, c.2.1 ++ r.2.1, c.2.2 ++ r.2.2)
        | .null => flatProps (alSet builder prop (.str "None")) rest

/-- Pure mirror of `traverse_value`. -/
def flatValue : Value → Bool → Value × List (String × Nat) × List (String × Value)
  | .int n, _ => (.int n, [], [])
  | .str s, _ => (.str s, [], [])
  | .bool b, _ => (.bool b, [], [])
  | .list xs, _ =>
      let r := flatList xs
      (.list r.1, r.2)
  | .dict es, _ =>
      let r := flatDict es
      (.dict r.1, r.2)
  | .base cs, detach =>
      let f := sealFlat (flatProps [("id", .str "")] cs)
      (f.2.1, shift1 f.2.2.1, f.2.2.2 ++ (if detach then [(f.1, f.2.1)] else []))
  | .null, _ => (.str "None", [], [])

def flatList : List Value → List Value × List (String × Nat) × List (String × Value)
  | [] => ([], [], [])
  | x :: r =>
      let c := flatValue x false
      let t := flatList r
      (c.1 :: t.1, c.2.1 ++ t.2.1, c.2.2 ++ t.2.2)

def flatDict : List (String × Value) →
    List (String × Value) × List (String × Nat) × List (String × Value)
  | [] => ([], [], [])
  | (k, v) :: r =>
      if isPrim v then
        let t := flatDict r
        ((k, v) :: t.1, t.2)
      else
        let c := flatValue v false
        let t := flatDict r
        ((k, c.1) :: t.1, c.2.1 ++ t.2.1, c.2.2 ++ t.2.2)

/-- Pure mirror of `sealBase` (hash, fill `id`, attach the closure built
from the level's merged events); input and output are
`(builder/record, events, saves)` with the hash prepended. -/
def sealFlat (r : List (String × Value) × List (String × Nat) × List (String × Value)) :
    String × Value × List (String × Nat) × List (String × Value) :=
  let h := hash_obj (.dict r.1)
  let b1 := alSet r.1 "id" (.str h)
  let fin :=
    if r.2.1.isEmpty then b1
    else alSet b1 "__closure"
      (.dict ((mergeMin [] r.2.1).map (fun e => (e.1, Value.int (e.2 : Int)))))
  (h, .dict fin, r.2.1, r.2.2)

end

/-- Pure mirror of one full `traverse_base` call on an object with
property list `props`. -/
def flatBase (props : List (String × Value)) :
    String × Value × List (String × Nat) × List (String × Value) :=
  sealFlat (flatProps [("id", .str "")] props)

/-- Hash of the record `flatBase` produces. -/
def flatHash (props : List (String × Value)) : String := (flatBase props).1

/-- The record `flatBase` produces. -/
def flatRec (props : List (String × Value)) : Value := (flatBase props).2.1

/-- The detach events of one level, relative depths (1 = directly
detached child). -/
def flatEvents (props : List (String × Value)) : List (String × Nat) := (flatBase props).2.2.1

/-- Logical save calls of the body of one level (the level's own save,
when detached, is appended by the caller side). -/
def flatSaves (props : List (String × Value)) : List (String × Value) := (flatBase props).2.2.2

/-! ### Association-list and merge algebra -/

theorem alGet_alSet_self {α : Type} (es : List (String × α)) (k : String) (v : α) :
    alGet (alSet es k v) k = some v := by
  induction es with
  | nil => simp [alSet, alGet]
  | cons e r ih =>
      by_cases h : e.1 = k
      · simp [alSet, alGet, h]
      · simpa [alSet, alGet, h] using ih

theorem ftGet_ftIns_self (ft : List (Nat × List (String × Nat))) (t : Nat) (ref : String)
    (d : Nat) : ftGet (ftIns ft t ref d) t = some (insMin ((ftGet ft t).getD []) ref d) := by
  induction ft with
  | nil => simp [ftIns, ftGet]
  | cons e r ih =>
      by_cases h : e.1 = t
      · simp [ftIns, ftGet, h]
      · simpa [ftIns, ftGet, h] using ih

theorem ftGet_ftIns_ne (ft : List (Nat × List (String × Nat))) (t t' : Nat) (ref : String)
    (d : Nat) (h : t' ≠ t) : ftGet (ftIns ft t ref d) t' = ftGet ft t' := by
  induction ft with
  | nil =>
      have h' : ¬ t = t' := fun e => h e.symm
      simp [ftIns, ftGet, h']
  | cons e r ih =>
      rcases e with ⟨a, m⟩
      simp only [ftIns]
      by_cases he : a = t
      · rw [if_pos he]
        have h' : ¬ a = t' := by rw [he]; exact fun e => h e.symm
        simp [ftGet, h']
      · rw [if_neg he]
        by_cases he' : a = t'
        · simp [ftGet, he']
        · simp [ftGet, he', ih]

theorem ftIns_keys (ft : List (Nat × List (String × Nat))) (t : Nat) (ref : String) (d : Nat) :
    ∀ p ∈ ftIns ft t ref d, p.1 = t ∨ p ∈ ft := by
  induction ft with
  | nil =>
      intro p hp
      simp only [ftIns, List.mem_singleton] at hp
      exact .inl (by rw [hp])
  | cons e r ih =>
      rcases e with ⟨a, m⟩
      intro p hp
      simp only [ftIns] at hp
      by_cases he : a = t
      · rw [if_pos he] at hp
        rcases List.mem_cons.mp hp with h1 | h1
        · exact .inl (by rw [h1]; exact he)
        · exact .inr (List.mem_cons_of_mem _ h1)
      · rw [if_neg he] at hp
        rcases List.mem_cons.mp hp with h1 | h1
        · exact .inr (by rw [h1]; exact List.mem_cons_self _ _)
        · rcases ih p h1 with h2 | h2
          · exact .inl h2
          · exact .inr (List.mem_cons_of_mem _ h2)

/-- The `family_tree` update loop of `detach_helper` over a token list. -/
def ftUpd (L : List Nat) (ref : String) (d : Nat) (ft : List (Nat × List (String × Nat))) :
    List (Nat × List (String × Nat)) :=
  L.foldl (fun ft t => ftIns ft t ref d) ft

theorem ftUpd_get (L : List Nat) (ref : String) (d : Nat)
    (ft : List (Nat × List (String × Nat))) (hnd : L.Nodup) (t : Nat) :
    ftGet (ftUpd L ref d ft) t =
      if t ∈ L then some (insMin ((ftGet ft t).getD []) ref d) else ftGet ft t := by
  induction L generalizing ft with
  | nil => simp [ftUpd]
  | cons a L' ih =>
      have hnd' : L'.Nodup := hnd.of_cons
      have ha : a ∉ L' := by
        have := List.nodup_cons.mp hnd
        exact this.1
      show ftGet (ftUpd L' ref d (ftIns ft a ref d)) t = _
      rw [ih _ hnd']
      by_cases hL : t ∈ L'
      · have hta : ¬ t = a := fun h => ha (h ▸ hL)
        rw [ftGet_ftIns_ne _ _ _ _ _ hta, if_pos hL, if_pos (List.mem_cons_of_mem _ hL)]
      · by_cases hta : t = a
        · subst hta
          rw [if_neg hL, ftGet_ftIns_self, if_pos (List.mem_cons_self _ _)]
        · rw [if_neg hL, ftGet_ftIns_ne _ _ _ _ _ hta, if_neg]
          intro hmem
          rcases List.mem_cons.mp hmem with h1 | h1
          · exact hta h1
          · exact hL h1

theorem ftUpd_keys (L : List Nat) (ref : String) (d : Nat)
    (ft : List (Nat × List (String × Nat))) :
    ∀ p ∈ ftUpd L ref d ft, p.1 ∈ L ∨ p ∈ ft := by
  induction L generalizing ft with
  | nil => simp [ftUpd]
  | cons a L' ih =>
      intro p hp
      rcases ih (ftIns ft a ref d) p hp with h | h
      · exact .inl (List.mem_cons_of_mem _ h)
      · rcases ftIns_keys ft a ref d p h with h' | h'
        · exact .inl (h' ▸ List.mem_cons_self a L')
        · exact .inr h'

theorem ftGet_eq_none (ft : List (Nat × List (String × Nat))) (u : Nat)
    (h : ∀ p ∈ ft, p.1 ≠ u) : ftGet ft u = none := by
  induction ft with
  | nil => rfl
  | cons e r ih =>
      have he : e.1 ≠ u := h e (List.mem_cons_self e r)
      simp only [ftGet, if_neg he]
      exact ih fun p hp => h p (List.mem_cons_of_mem _ hp)

/-- Uniform depth shift of an event list. -/
def shiftE (c : Nat) (evs : List (String × Nat)) : List (String × Nat) :=
  evs.map (fun e => (e.1, e.2 + c))

theorem shiftE_append (c : Nat) (e1 e2 : List (String × Nat)) :
    shiftE c (e1 ++ e2) = shiftE c e1 ++ shiftE c e2 := List.map_append _ _ _

theorem shiftE_shift1 (c : Nat) (evs : List (String × Nat)) :
    shiftE c (shift1 evs) = shiftE (c + 1) evs := by
  simp only [shiftE, shift1, List.map_map]
  apply List.map_congr_left
  intro e _
  simp [Nat.add_comm, Nat.add_assoc, Nat.add_left_comm]

theorem insMin_shiftE (c : Nat) (d : List (String × Nat)) (k : String) (v : Nat) :
    insMin (shiftE c d) k (v + c) = shiftE c (insMin d k v) := by
  induction d with
  | nil => simp [insMin, shiftE]
  | cons e r ih =>
      by_cases h : e.1 = k
      · simp only [shiftE, List.map_cons, insMin, h, if_pos rfl]
        by_cases hv : e.2 > v
        · simp [shiftE, hv, Nat.add_lt_add_right hv c, gt_iff_lt]
        · have : ¬ e.2 + c > v + c := fun hc => hv (Nat.lt_of_add_lt_add_right hc)
          simp [shiftE, hv, this, gt_iff_lt]
      · simp only [shiftE, List.map_cons, insMin, h, if_neg h] at ih ⊢
        simp [ih, shiftE]

theorem mergeMin_shiftE (c : Nat) (d evs : List (String × Nat)) :
    mergeMin (shiftE c d) (shiftE c evs) = shiftE c (mergeMin d evs) := by
  induction evs generalizing d with
  | nil => simp [mergeMin, shiftE]
  | cons e r ih =>
      show mergeMin (insMin (shiftE c d) e.1 (e.2 + c)) (shiftE c r) = _
      rw [insMin_shiftE]
      exact ih (insMin d e.1 e.2)

theorem mergeMin_append (d : List (String × Nat)) (e1 e2 : List (String × Nat)) :
    mergeMin d (e1 ++ e2) = mergeMin (mergeMin d e1) e2 := by
  unfold mergeMin
  rw [List.foldl_append]

/-- Effect of a batch of events on one `family_tree` entry: no effect when
the batch is empty, else min-merge into the (possibly fresh) inner dict. -/
def optMerge (o : Option (List (String × Nat))) (evs : List (String × Nat)) :
    Option (List (String × Nat)) :=
  match evs with
  | [] => o
  | _ => some (mergeMin (o.getD []) evs)

theorem optMerge_append (o : Option (List (String × Nat))) (e1 e2 : List (String × Nat)) :
    optMerge (optMerge o e1) e2 = optMerge o (e1 ++ e2) := by
  cases e1 with
  | nil => simp [optMerge]
  | cons x r =>
      cases e2 with
      | nil => simp [optMerge]
      | cons y s =>
          show some (mergeMin (mergeMin (o.getD []) (x :: r)) (y :: s)) = _
          rw [← mergeMin_append]
          rfl

/-- Fan-out of a logical save list over `nw` write transports. -/
def fanSaves (nw : Nat) (l : List (String × Value)) : List (Nat × String × String) :=
  l.flatMap (fun s => (List.range nw).map (fun i => (i, s.1, dumps s.2)))

theorem fanSaves_append (nw : Nat) (l1 l2 : List (String × Value)) :
    fanSaves nw (l1 ++ l2) = fanSaves nw l1 ++ fanSaves nw l2 := by
  unfold fanSaves
  rw [List.flatMap_append]

/-! ### The simulation invariant -/

/-- Well-formedness of the traversal state: lineage tokens are distinct
and, like all `family_tree` keys, below the fresh counter. -/
structure WfS (σ : SState) : Prop where
  nodup : σ.lineage.Nodup
  linLt : ∀ t ∈ σ.lineage, t < σ.ctr
  ftLt : ∀ p ∈ σ.family_tree, p.1 < σ.ctr

/-- What one traversal step does to the state: the new detach stack is
`dl'`; lineage is restored; the counter only grows; the save trace grows
by the fan-out of the logical saves `svs`; each `family_tree` entry of a
pre-existing token is min-merged with the (absolute-depth) events `evs`
when the token is an open ancestor and untouched otherwise; and
well-formedness is preserved. -/
structure TOut (nw : Nat) (σ : SState) (dl' : List Bool) (evs : List (String × Nat))
    (svs : List (String × Value)) (σ' : SState) : Prop where
  dl : σ'.detach_lineage = dl'
  lin : σ'.lineage = σ.lineage
  ctrle : σ.ctr ≤ σ'.ctr
  sv : σ'.saves = σ.saves ++ fanSaves nw svs
  ft : ∀ t, t < σ.ctr →
    ftGet σ'.family_tree t =
      if t ∈ σ.lineage then optMerge (ftGet σ.family_tree t) evs else ftGet σ.family_tree t
  wf : WfS σ'

theorem TOut.triv (nw : Nat) (σ : SState) (w : WfS σ) : TOut nw σ σ.detach_lineage [] [] σ := by
  refine ⟨rfl, rfl, le_refl _, by simp [fanSaves], ?_, w⟩
  intro t _
  by_cases h : t ∈ σ.lineage <;> simp [optMerge, h]

theorem TOut.trans {nw : Nat} {σ σm σ' : SState} {dla dlb : List Bool}
    {evs1 evs2 : List (String × Nat)} {svs1 svs2 : List (String × Value)}
    (h1 : TOut nw σ dla evs1 svs1 σm) (h2 : TOut nw σm dlb evs2 svs2 σ') :
    TOut nw σ dlb (evs1 ++ evs2) (svs1 ++ svs2) σ' := by
  refine ⟨h2.dl, by rw [h2.lin, h1.lin], le_trans h1.ctrle h2.ctrle,
    by rw [h2.sv, h1.sv, fanSaves_append, List.append_assoc], ?_, h2.wf⟩
  intro t ht
  have htm : t < σm.ctr := lt_of_lt_of_le ht h1.ctrle
  have hft2 := h2.ft t htm
  rw [h1.lin] at hft2
  rw [hft2, h1.ft t ht]
  by_cases hmem : t ∈ σ.lineage
  · simp only [if_pos hmem]
    exact optMerge_append _ _ _
  · simp [hmem]

theorem detach_helper_out (nw : Nat) (σ : SState) (ref : String) (w : WfS σ) :
    (detach_helper σ ref).1 = refMarker ref ∧
    TOut nw σ σ.detach_lineage [(ref, σ.detach_lineage.length)] [] (detach_helper σ ref).2 := by
  refine ⟨rfl, rfl, rfl, le_refl _, by simp [detach_helper, fanSaves], ?_, ?_, ?_, ?_⟩
  · intro t ht
    show ftGet (ftUpd σ.lineage ref σ.detach_lineage.length σ.family_tree) t = _
    rw [ftUpd_get _ _ _ _ w.nodup]
    by_cases hmem : t ∈ σ.lineage
    · simp only [if_pos hmem]
      rfl
    · simp [hmem]
  · exact w.nodup
  · exact w.linLt
  · intro p hp
    rcases ftUpd_keys σ.lineage ref σ.detach_lineage.length σ.family_tree p hp with h | h
    · exact w.linLt _ h
    · exact w.ftLt _ h

theorem closVals (n : Nat) (l : List (String × Nat)) :
    (shiftE n l).map (fun rd => (rd.1, (rd.2 : Int) - (n : Int))) =
      l.map (fun e => (e.1, (e.2 : Int))) := by
  induction l with
  | nil => simp [shiftE]
  | cons e r ih =>
      simp only [shiftE, List.map_cons] at ih ⊢
      refine congrArg₂ _ ?_ ih
      have : ((e.2 + n : Nat) : Int) - (n : Int) = (e.2 : Int) := by push_cast; omega
      simp [this]

theorem fanSaves_one (nw : Nat) (h : String) (v : Value) :
    fanSaves nw [(h, v)] = (List.range nw).map (fun i => (i, h, dumps v)) := by
  simp [fanSaves]

theorem WfS.push (σ : SState) (w : WfS σ) (d : Bool) :
    WfS { σ with detach_lineage := d :: σ.detach_lineage,
                 lineage := σ.ctr :: σ.lineage, ctr := σ.ctr + 1 } := by
  refine ⟨?_, ?_, ?_⟩ <;> dsimp only
  · refine List.nodup_cons.mpr ⟨?_, w.nodup⟩
    intro hmem
    exact absurd (w.linLt _ hmem) (lt_irrefl _)
  · intro t ht
    rcases List.mem_cons.mp ht with h | h
    · omega
    · have := w.linLt _ h
      omega
  · intro p hp
    have := w.ftLt _ hp
    omega

/-- The lineage push of `openBase` in isolation. -/
def pushTok (σ : SState) : SState :=
  { σ with lineage := σ.ctr :: σ.lineage, ctr := σ.ctr + 1 }

theorem openBase_eq (σ : SState) (hne : σ.detach_lineage ≠ []) :
    openBase σ = (σ.ctr, pushTok σ) := by
  cases h : σ.detach_lineage with
  | nil => exact absurd h hne
  | cons a l => simp [openBase, pushTok, h]

theorem WfS.pushTok (σ : SState) (w : WfS σ) : WfS (pushTok σ) := by
  refine ⟨?_, ?_, ?_⟩
  · show (σ.ctr :: σ.lineage).Nodup
    refine List.nodup_cons.mpr ⟨?_, w.nodup⟩
    intro hmem
    exact absurd (w.linLt _ hmem) (lt_irrefl _)
  · show ∀ t ∈ σ.ctr :: σ.lineage, t < σ.ctr + 1
    intro t ht
    rcases List.mem_cons.mp ht with h | h
    · omega
    · have := w.linLt _ h
      omega
  · show ∀ p ∈ σ.family_tree, p.1 < σ.ctr + 1
    intro p hp
    have := w.ftLt _ hp
    omega


theorem closMap (c : Nat) (m : List (String × Nat)) :
    ((shiftE c m).map (fun rd => (rd.1, (rd.2 : Int) - (c : Int)))).map
        (fun rd => (rd.1, Value.int rd.2)) =
      m.map (fun e => (e.1, Value.int (e.2 : Int))) := by
  unfold shiftE
  rw [List.map_map, List.map_map]
  apply List.map_congr_left
  intro e _
  have h2 : ((e.2 + c : Nat) : Int) - (c : Int) = (e.2 : Int) := by push_cast; omega
  simp only [Function.comp_apply, h2]

theorem mergeMin_nil_shiftE (c : Nat) (l : List (String × Nat)) :
    mergeMin [] (shiftE c l) = shiftE c (mergeMin [] l) := by
  have h2 := mergeMin_shiftE c [] l
  simpa [shiftE] using h2

theorem seal_out (nw : Nat) (σ : SState) (cs : List (String × Value)) (d : Bool)
    (rest : List Bool) (w : WfS σ) (hd : σ.detach_lineage = d :: rest)
    (hp1 : (traverse_props nw (pushTok σ) [("id", .str "")] cs).1 =
      (flatProps [("id", .str "")] cs).1)
    (hp2 : TOut nw (pushTok σ) σ.detach_lineage
      (shiftE (σ.detach_lineage.length - 1) (flatProps [("id", .str "")] cs).2.1)
      (flatProps [("id", .str "")] cs).2.2
      (traverse_props nw (pushTok σ) [("id", .str "")] cs).2) :
    (traverse_base nw σ cs).1 = (flatHash cs, flatRec cs) ∧
    TOut nw σ rest (shiftE (σ.detach_lineage.length - 1) (flatEvents cs))
      (flatSaves cs ++ (if d then [(flatHash cs, flatRec cs)] else []))
      (traverse_base nw σ cs).2 := by
  have hne : σ.detach_lineage ≠ [] := by
    rw [hd]
    exact List.cons_ne_nil d rest
  have htb : traverse_base nw σ cs =
      sealBase nw σ.ctr (traverse_props nw (pushTok σ) [("id", .str "")] cs) := by
    unfold traverse_base
    rw [openBase_eq σ hne]
  set bs := traverse_props nw (pushTok σ) [("id", .str "")] cs with hbsdef
  set fp := flatProps [("id", .str "")] cs with hfpdef
  have hmdl : bs.2.detach_lineage = d :: rest := by
    have h := hp2.dl
    rw [h, hd]
  have hmlin : bs.2.lineage = σ.ctr :: σ.lineage := by
    have h := hp2.lin
    rw [h]
    rfl
  have hsv : bs.2.saves = σ.saves ++ fanSaves nw fp.2.2 := by
    have h := hp2.sv
    rw [h]
    rfl
  have hfu : ftGet bs.2.family_tree σ.ctr =
      optMerge none (shiftE (σ.detach_lineage.length - 1) fp.2.1) := by
    have hlt : σ.ctr < (pushTok σ).ctr := Nat.lt_succ_self σ.ctr
    have h1 := hp2.ft σ.ctr hlt
    have hmem : σ.ctr ∈ (pushTok σ).lineage := List.mem_cons_self _ _
    rw [if_pos hmem] at h1
    have h0 : ftGet (pushTok σ).family_tree σ.ctr = none := by
      apply ftGet_eq_none
      intro p hp
      exact Nat.ne_of_lt (w.ftLt _ hp)
    rw [h0] at h1
    exact h1
  have hc : rest.length = σ.detach_lineage.length - 1 := by
    rw [hd]
    rfl
  -- dissect `sealBase` on the two closure branches
  have hseal : (sealBase nw σ.ctr bs).1 = ((sealFlat fp).1, (sealFlat fp).2.1) ∧
      (sealBase nw σ.ctr bs).2.detach_lineage = rest ∧
      (sealBase nw σ.ctr bs).2.lineage = σ.lineage ∧
      (sealBase nw σ.ctr bs).2.family_tree = bs.2.family_tree ∧
      (sealBase nw σ.ctr bs).2.ctr = bs.2.ctr ∧
      (sealBase nw σ.ctr bs).2.saves = bs.2.saves ++
        (if d then fanSaves nw [((sealFlat fp).1, (sealFlat fp).2.1)] else []) := by
    cases hevs : fp.2.1 with
    | nil =>
        unfold sealBase sealFlat
        dsimp only
        rw [hp1, hmdl, hfu, hevs]
        simp only [shiftE, List.map_nil, optMerge, pyPopFlag, List.isEmpty_nil, if_true, hmlin]
        cases d <;> simp [fanSaves]
    | cons e0 evtl =>
        unfold sealBase sealFlat
        dsimp only
        rw [hp1, hmdl, hfu, hevs]
        have hncons : shiftE (σ.detach_lineage.length - 1) (e0 :: evtl) =
            (e0.1, e0.2 + (σ.detach_lineage.length - 1)) ::
              shiftE (σ.detach_lineage.length - 1) evtl := rfl
        simp only [optMerge, hncons, pyPopFlag, List.isEmpty_cons, hmlin, Option.getD_none]
        rw [← hncons, hc, mergeMin_nil_shiftE, closMap]
        cases d <;> simp [fanSaves]
  rw [htb]
  obtain ⟨ho, hdl2, hlin2, hft2, hctr2, hsv2⟩ := hseal
  constructor
  · exact ho
  refine ⟨hdl2, hlin2, ?_, ?_, ?_, ?_⟩
  · have h1 : σ.ctr ≤ (pushTok σ).ctr := Nat.le_succ σ.ctr
    rw [hctr2]
    exact le_trans h1 hp2.ctrle
  · rw [hsv2, hsv]
    have hfl : flatSaves cs = fp.2.2 := rfl
    have hfh : flatHash cs = (sealFlat fp).1 := rfl
    have hfr : flatRec cs = (sealFlat fp).2.1 := rfl
    rw [fanSaves_append, hfl, hfh, hfr, List.append_assoc]
    cases d <;> simp [fanSaves]
  · intro t ht
    rw [hft2]
    have hlt : t < (pushTok σ).ctr := Nat.lt_succ_of_lt ht
    have h1 := hp2.ft t hlt
    have htne : ¬ t = σ.ctr := Nat.ne_of_lt ht
    have hmem : t ∈ (pushTok σ).lineage ↔ t ∈ σ.lineage := by
      show t ∈ σ.ctr :: σ.lineage ↔ t ∈ σ.lineage
      simp [htne]
    have hfteq : ftGet (pushTok σ).family_tree t = ftGet σ.family_tree t := rfl
    rw [hfteq] at h1
    have hfe : flatEvents cs = fp.2.1 := rfl
    rw [hfe]
    by_cases hm : t ∈ σ.lineage
    · rw [if_pos hm]
      rw [if_pos (hmem.mpr hm)] at h1
      exact h1
    · rw [if_neg hm]
      rw [if_neg (fun hx => hm (hmem.mp hx))] at h1
      exact h1
  · have wfm := hp2.wf
    refine ⟨?_, ?_, ?_⟩
    · rw [hlin2]
      have h1 := wfm.nodup
      rw [hmlin] at h1
      exact h1.of_cons
    · intro t htm
      rw [hctr2]
      apply wfm.linLt
      rw [hmlin]
      rw [hlin2] at htm
      exact List.mem_cons_of_mem _ htm
    · intro p hp
      rw [hctr2]
      apply wfm.ftLt
      rw [← hft2]
      exact hp

/-! ### The simulation: the stateful traversal computes the pure mirror -/

mutual

theorem sim_props (nw : Nat) : ∀ (σ : SState) (builder props : List (String × Value)),
    WfS σ → σ.detach_lineage ≠ [] →
    (traverse_props nw σ builder props).1 = (flatProps builder props).1 ∧
    TOut nw σ σ.detach_lineage
      (shiftE (σ.detach_lineage.length - 1) (flatProps builder props).2.1)
      (flatProps builder props).2.2 (traverse_props nw σ builder props).2
  | σ, builder, [], w, hne => by
      refine ⟨rfl, ?_⟩
      show TOut nw σ σ.detach_lineage (shiftE (σ.detach_lineage.length - 1) []) [] σ
      simpa [shiftE] using TOut.triv nw σ w
  | σ, builder, (prop, .int n) :: rest, w, hne => by
      by_cases hskip : (falsy (.int n) || pyStartsWith prop "__") = true
      · have h1 := sim_props nw σ builder rest w hne
        simpa [traverse_props, flatProps, hskip] using h1
      · have hf : (falsy (.int n) || pyStartsWith prop "__") = false := by
          revert hskip
          cases falsy (.int n) || pyStartsWith prop "__" <;> simp
        have h1 := sim_props nw σ (alSet builder prop (.int n)) rest w hne
        simpa [traverse_props, flatProps, hf] using h1
  | σ, builder, (prop, .str sv) :: rest, w, hne => by
      by_cases hskip : (falsy (.str sv) || pyStartsWith prop "__") = true
      · have h1 := sim_props nw σ builder rest w hne
        simpa [traverse_props, flatProps, hskip] using h1
      · have hf : (falsy (.str sv) || pyStartsWith prop "__") = false := by
          revert hskip
          cases falsy (.str sv) || pyStartsWith prop "__" <;> simp
        have h1 := sim_props nw σ (alSet builder prop (.str sv)) rest w hne
        simpa [traverse_props, flatProps, hf] using h1
  | σ, builder, (prop, .bool b) :: rest, w, hne => by
      by_cases hskip : (falsy (.bool b) || pyStartsWith prop "__") = true
      · have h1 := sim_props nw σ builder rest w hne
        simpa [traverse_props, flatProps, hskip] using h1
      · have hf : (falsy (.bool b) || pyStartsWith prop "__") = false := by
          revert hskip
          cases falsy (.bool b) || pyStartsWith prop "__" <;> simp
        have h1 := sim_props nw σ (alSet builder prop (.bool b)) rest w hne
        simpa [traverse_props, flatProps, hf] using h1
  | σ, builder, (prop, .null) :: rest, w, hne => by
      by_cases hskip : (falsy .null || pyStartsWith prop "__") = true
      · have h1 := sim_props nw σ builder rest w hne
        simpa [traverse_props, flatProps, hskip] using h1
      · have hf : (falsy .null || pyStartsWith prop "__") = false := by
          revert hskip
          cases falsy .null || pyStartsWith prop "__" <;> simp
        simp [falsy] at hf
  | σ, builder, (prop, .list xs) :: rest, w, hne => by
      by_cases hskip : (falsy (.list xs) || pyStartsWith prop "__") = true
      · have h1 := sim_props nw σ builder rest w hne
        simpa [traverse_props, flatProps, hskip] using h1
      · have hf : (falsy (.list xs) || pyStartsWith prop "__") = false := by
          revert hskip
          cases falsy (.list xs) || pyStartsWith prop "__" <;> simp
        obtain ⟨hv1, hv2⟩ := sim_value nw σ (.list xs) false w hne
        obtain ⟨hr1, hr2⟩ := sim_props nw (traverse_value nw σ (.list xs) false).2
          (alSet builder prop (flatValue (.list xs) false).1) rest hv2.wf
          (by rw [hv2.dl]; exact hne)
        rw [hv2.dl] at hr2
        constructor
        · simp only [traverse_props, flatProps, hf, Bool.false_eq_true, if_false]
          rw [hv1]
          exact hr1
        · simp only [traverse_props, flatProps, hf, Bool.false_eq_true, if_false]
          rw [hv1, shiftE_append]
          exact TOut.trans hv2 hr2
  | σ, builder, (prop, .dict es) :: rest, w, hne => by
      by_cases hskip : (falsy (.dict es) || pyStartsWith prop "__") = true
      · have h1 := sim_props nw σ builder rest w hne
        simpa [traverse_props, flatProps, hskip] using h1
      · have hf : (falsy (.dict es) || pyStartsWith prop "__") = false := by
          revert hskip
          cases falsy (.dict es) || pyStartsWith prop "__" <;> simp
        obtain ⟨hv1, hv2⟩ := sim_value nw σ (.dict es) false w hne
        obtain ⟨hr1, hr2⟩ := sim_props nw (traverse_value nw σ (.dict es) false).2
          (alSet builder prop (flatValue (.dict es) false).1) rest hv2.wf
          (by rw [hv2.dl]; exact hne)
        rw [hv2.dl] at hr2
        constructor
        · simp only [traverse_props, flatProps, hf, Bool.false_eq_true, if_false]
          rw [hv1]
          exact hr1
        · simp only [traverse_props, flatProps, hf, Bool.false_eq_true, if_false]
          rw [hv1, shiftE_append]
          exact TOut.trans hv2 hr2
  | σ, builder, (prop, .base cs) :: rest, w, hne => by
      by_cases hskip : (falsy (.base cs) || pyStartsWith prop "__") = true
      · have h1 := sim_props nw σ builder rest w hne
        simpa [traverse_props, flatProps, hskip] using h1
      · have hf : (falsy (.base cs) || pyStartsWith prop "__") = false := by
          revert hskip
          cases falsy (.base cs) || pyStartsWith prop "__" <;> simp
        obtain ⟨hv1, hv2⟩ := sim_value nw σ (.base cs) (pyStartsWith prop "@") w hne
        by_cases hdet : pyStartsWith prop "@" = true
        · rw [hdet] at hv1 hv2
          obtain ⟨hm1, hm2⟩ := detach_helper_out nw
            (traverse_value nw σ (.base cs) true).2
            (getIdStr (flatValue (.base cs) true).1) hv2.wf
          rw [hv2.dl] at hm2
          obtain ⟨hr1, hr2⟩ := sim_props nw
            (detach_helper (traverse_value nw σ (.base cs) true).2
              (getIdStr (flatValue (.base cs) true).1)).2
            (alSet builder prop
              (refMarker (getIdStr (flatValue (.base cs) true).1))) rest
            hm2.wf (by rw [hm2.dl]; exact hne)
          rw [hm2.dl] at hr2
          have hn1 : 1 + (σ.detach_lineage.length - 1) = σ.detach_lineage.length := by
            have := List.length_pos.mpr hne
            omega
          have hsing : shiftE (σ.detach_lineage.length - 1)
              [(getIdStr (flatValue (.base cs) true).1, 1)] =
              [(getIdStr (flatValue (.base cs) true).1, σ.detach_lineage.length)] := by
            simp [shiftE, hn1]
          rw [← hsing] at hm2
          constructor
          · simp only [traverse_props, flatProps, hf, Bool.false_eq_true, if_false, hdet,
              if_true]
            rw [hv1, hm1]
            exact hr1
          · simp only [traverse_props, flatProps, hf, Bool.false_eq_true, if_false, hdet,
              if_true]
            rw [hv1, hm1, shiftE_append, shiftE_append]
            simpa only [List.append_nil] using TOut.trans (TOut.trans hv2 hm2) hr2
        · have hdf : pyStartsWith prop "@" = false := by
            revert hdet
            cases pyStartsWith prop "@" <;> simp
          rw [hdf] at hv1 hv2
          obtain ⟨hr1, hr2⟩ := sim_props nw
            (traverse_value nw σ (.base cs) false).2
            (alSet builder prop (flatValue (.base cs) false).1) rest hv2.wf
            (by rw [hv2.dl]; exact hne)
          rw [hv2.dl] at hr2
          constructor
          · simp only [traverse_props, flatProps, hf, Bool.false_eq_true, if_false, hdf]
            rw [hv1]
            exact hr1
          · simp only [traverse_props, flatProps, hf, Bool.false_eq_true, if_false, hdf]
            rw [hv1, shiftE_append]
            exact TOut.trans hv2 hr2

theorem sim_value (nw : Nat) : ∀ (σ : SState) (v : Value) (detach : Bool),
    WfS σ → σ.detach_lineage ≠ [] →
    (traverse_value nw σ v detach).1 = (flatValue v detach).1 ∧
    TOut nw σ σ.detach_lineage
      (shiftE (σ.detach_lineage.length - 1) (flatValue v detach).2.1)
      (flatValue v detach).2.2 (traverse_value nw σ v detach).2
  | σ, .int n, detach, w, hne => by
      refine ⟨rfl, ?_⟩
      show TOut nw σ σ.detach_lineage (shiftE (σ.detach_lineage.length - 1) []) [] σ
      simpa [shiftE] using TOut.triv nw σ w
  | σ, .str s, detach, w, hne => by
      refine ⟨rfl, ?_⟩
      show TOut nw σ σ.detach_lineage (shiftE (σ.detach_lineage.length - 1) []) [] σ
      simpa [shiftE] using TOut.triv nw σ w
  | σ, .bool b, detach, w, hne => by
      refine ⟨rfl, ?_⟩
      show TOut nw σ σ.detach_lineage (shiftE (σ.detach_lineage.length - 1) []) [] σ
      simpa [shiftE] using TOut.triv nw σ w
  | σ, .null, detach, w, hne => by
      refine ⟨rfl, ?_⟩
      show TOut nw σ σ.detach_lineage (shiftE (σ.detach_lineage.length - 1) []) [] σ
      simpa [shiftE] using TOut.triv nw σ w
  | σ, .list xs, detach, w, hne => by
      obtain ⟨h1, h2⟩ := sim_vlist nw σ xs w hne
      constructor
      · show Value.list (traverse_vlist nw σ xs).1 = Value.list (flatList xs).1
        rw [h1]
      · exact h2
  | σ, .dict es, detach, w, hne => by
      obtain ⟨h1, h2⟩ := sim_vdict nw σ es w hne
      constructor
      · show Value.dict (traverse_vdict nw σ es).1 = Value.dict (flatDict es).1
        rw [h1]
      · exact h2
  | σ, .base cs, detach, w, hne => by
      have w1 : WfS { σ with detach_lineage := detach :: σ.detach_lineage } :=
        ⟨w.nodup, w.linLt, w.ftLt⟩
      have hp := sim_props nw (pushTok { σ with detach_lineage := detach :: σ.detach_lineage })
        [("id", .str "")] cs (WfS.pushTok _ w1) (List.cons_ne_nil _ _)
      obtain ⟨hs1, hs2⟩ := seal_out nw { σ with detach_lineage := detach :: σ.detach_lineage }
        cs detach σ.detach_lineage w1 rfl hp.1 hp.2
      rw [traverse_value_base]
      constructor
      · show (traverse_base nw { σ with detach_lineage := detach :: σ.detach_lineage } cs).1.2
          = flatRec cs
        rw [hs1]
      · show TOut nw σ σ.detach_lineage
          (shiftE (σ.detach_lineage.length - 1) (shift1 (flatEvents cs)))
          (flatSaves cs ++ (if detach then [(flatHash cs, flatRec cs)] else []))
          (traverse_base nw { σ with detach_lineage := detach :: σ.detach_lineage } cs).2
        rw [shiftE_shift1]
        have hlen : σ.detach_lineage.length - 1 + 1 = σ.detach_lineage.length := by
          have := List.length_pos.mpr hne
          omega
        rw [hlen]
        refine ⟨hs2.dl, ?_, hs2.ctrle, ?_, ?_, hs2.wf⟩
        · exact hs2.lin
        · exact hs2.sv
        · intro t ht
          exact hs2.ft t ht

theorem sim_vlist (nw : Nat) : ∀ (σ : SState) (xs : List Value),
    WfS σ → σ.detach_lineage ≠ [] →
    (traverse_vlist nw σ xs).1 = (flatList xs).1 ∧
    TOut nw σ σ.detach_lineage
      (shiftE (σ.detach_lineage.length - 1) (flatList xs).2.1)
      (flatList xs).2.2 (traverse_vlist nw σ xs).2
  | σ, [], w, hne => by
      refine ⟨rfl, ?_⟩
      show TOut nw σ σ.detach_lineage (shiftE (σ.detach_lineage.length - 1) []) [] σ
      simpa [shiftE] using TOut.triv nw σ w
  | σ, x :: r, w, hne => by
      obtain ⟨hv1, hv2⟩ := sim_value nw σ x false w hne
      obtain ⟨hr1, hr2⟩ := sim_vlist nw (traverse_value nw σ x false).2 r hv2.wf
        (by rw [hv2.dl]; exact hne)
      rw [hv2.dl] at hr2
      constructor
      · simp only [traverse_vlist, flatList]
        rw [hv1, hr1]
      · simp only [traverse_vlist, flatList]
        rw [shiftE_append]
        exact TOut.trans hv2 hr2

theorem sim_vdict (nw : Nat) : ∀ (σ : SState) (es : List (String × Value)),
    WfS σ → σ.detach_lineage ≠ [] →
    (traverse_vdict nw σ es).1 = (flatDict es).1 ∧
    TOut nw σ σ.detach_lineage
      (shiftE (σ.detach_lineage.length - 1) (flatDict es).2.1)
      (flatDict es).2.2 (traverse_vdict nw σ es).2
  | σ, [], w, hne => by
      refine ⟨rfl, ?_⟩
      show TOut nw σ σ.detach_lineage (shiftE (σ.detach_lineage.length - 1) []) [] σ
      simpa [shiftE] using TOut.triv nw σ w
  | σ, (k, v) :: r, w, hne => by
      by_cases hp : isPrim v = true
      · obtain ⟨hr1, hr2⟩ := sim_vdict nw σ r w hne
        constructor
        · simp only [traverse_vdict, flatDict, hp, if_true]
          rw [hr1]
        · simp only [traverse_vdict, flatDict, hp, if_true]
          exact hr2
      · have hpf : isPrim v = false := by
          revert hp
          cases isPrim v <;> simp
        obtain ⟨hv1, hv2⟩ := sim_value nw σ v false w hne
        obtain ⟨hr1, hr2⟩ := sim_vdict nw (traverse_value nw σ v false).2 r hv2.wf
          (by rw [hv2.dl]; exact hne)
        rw [hv2.dl] at hr2
        constructor
        · simp only [traverse_vdict, flatDict, hpf, Bool.false_eq_true, if_false]
          rw [hv1, hr1]
        · simp only [traverse_vdict, flatDict, hpf, Bool.false_eq_true, if_false]
          rw [shiftE_append]
          exact TOut.trans hv2 hr2

end

/-- One full `traverse_base` call from any well-formed state computes the
pure mirror: the returned hash and record are `flatBase` of the object,
the save trace grows by the fan-out of the body saves (plus this record
itself when the level was marked detached), and ancestors' `family_tree`
entries absorb the level's detach events. -/
theorem traverse_base_eq (nw : Nat) (σ : SState) (props : List (String × Value)) (d : Bool)
    (rest : List Bool) (w : WfS σ) (hd : σ.detach_lineage = d :: rest) :
    (traverse_base nw σ props).1 = (flatHash props, flatRec props) ∧
    TOut nw σ rest (shiftE (σ.detach_lineage.length - 1) (flatEvents props))
      (flatSaves props ++ (if d then [(flatHash props, flatRec props)] else []))
      (traverse_base nw σ props).2 := by
  have hne : (pushTok σ).detach_lineage ≠ [] := by
    show σ.detach_lineage ≠ []
    rw [hd]
    exact List.cons_ne_nil _ _
  obtain ⟨hp1, hp2⟩ := sim_props nw (pushTok σ) [("id", .str "")] props (WfS.pushTok σ w) hne
  exact seal_out nw σ props d rest w hd hp1 hp2

/-- `write_json` returns `flatBase`'s hash and serialized record and
appends exactly the fan-out of the logical saves (detached descendants in
traversal order, then the root itself) to the transports' trace,
independently of the state it starts from. -/
theorem write_json_eq (nw : Nat) (σ : SState) (props : List (String × Value)) :
    (write_json nw σ props).1 = (flatHash props, dumps (flatRec props)) ∧
    (write_json nw σ props).2.saves =
      σ.saves ++ fanSaves nw (flatSaves props ++ [(flatHash props, flatRec props)]) := by
  have w : WfS { σ with detach_lineage := [true], lineage := [], family_tree := [], closure_table := [] } := by
    refine ⟨?_, ?_, ?_⟩
    · show ([] : List Nat).Nodup
      exact List.nodup_nil
    · intro t ht
      exact absurd ht (List.not_mem_nil t)
    · intro p hp
      exact absurd hp (List.not_mem_nil p)
  obtain ⟨h1, h2⟩ := traverse_base_eq nw
    { σ with detach_lineage := [true], lineage := [], family_tree := [], closure_table := [] }
    props true [] w rfl
  constructor
  · simp only [write_json]
    rw [h1]
  · simp only [write_json]
    rw [h2.sv]
    rfl

set_option maxRecDepth 1000000

/-! ### Claim C9: determinism across runs -/

/-- C9: decomposition is deterministic as a two-run property.  For every
object and any two serializer states (in particular states whose
fresh-token streams are at different positions, so that the per-level
transient identifiers generated in the two runs are pairwise different),
`write_json` returns the same hash and the same serialized record: the
transient identifiers never influence the returned hash or record. -/
theorem c9_determinism (nw : Nat) (σ1 σ2 : SState) (props : List (String × Value)) :
    (write_json nw σ1 props).1 = (write_json nw σ2 props).1 := by
  rw [(write_json_eq nw σ1 props).1, (write_json_eq nw σ2 props).1]

/-! ### Claim C3: the falsy-skip scenario -/

def c3obj : List (String × Value) :=
  [("a", .int 1), ("b", .int 0), ("c", .str ""), ("d", .null)]

def c3H : String := hash_obj (.dict [("id", .str ""), ("a", .int 1)])

/-- C3 counterexample: decomposing `{a: 1, b: 0, c: "", d: null}` does
not yield a record containing only `{id: <hash>}` — the truthy property
`a` is kept, so the record is `{id: <hash>, a: 1}` and differs from every
single-field record `{id: h}`. -/
theorem c3_falsy_skip_counterexample :
    (traverse_base 1 { initS with detach_lineage := [true] } c3obj).1.2 =
      .dict [("id", .str c3H), ("a", .int 1)] ∧
    ∀ h : Value, (traverse_base 1 { initS with detach_lineage := [true] } c3obj).1.2 ≠
      .dict [("id", h)] := by
  constructor
  · rfl
  · intro h heq
    rw [show (traverse_base 1 { initS with detach_lineage := [true] } c3obj).1.2 =
      Value.dict [("id", .str c3H), ("a", .int 1)] from rfl] at heq
    simp at heq

/-- C3 amended: decomposing `{a: 1, b: 0, c: "", d: null}` yields the
record `{id: <hash>, a: 1}`: every property whose value is falsy (`b`,
`c`, `d`) is dropped from the record, while the truthy `a: 1` is kept
alongside the `id`. -/
theorem c3_falsy_skip_amended :
    (write_json 1 initS c3obj).1 = (c3H, dumps (.dict [("id", .str c3H), ("a", .int 1)])) ∧
    (traverse_base 1 { initS with detach_lineage := [true] } c3obj).1.2 =
      .dict [("id", .str c3H), ("a", .int 1)] :=
  ⟨rfl, rfl⟩

/-! ### Claim C2: the detach scenario -/

def c2obj : List (String × Value) := [("@child", .base [("x", .int 5)])]

def c2H : String := hash_obj (.dict [("id", .str ""), ("x", .int 5)])

def c2R : String := hash_obj (.dict [("id", .str ""), ("@child", refMarker c2H)])

def c2childRec : Value := .dict [("id", .str c2H), ("x", .int 5)]

def c2rootRec : Value :=
  .dict [("id", .str c2R), ("@child", refMarker c2H), ("__closure", .dict [(c2H, .int 1)])]

theorem range_filter_eq (nw i : Nat) (hi : i < nw) :
    (List.range nw).filter (fun j => j == i) = [i] := by
  induction nw with
  | zero => omega
  | succ n ih =>
      rw [List.range_succ, List.filter_append]
      by_cases h : i < n
      · rw [ih h]
        have hne : (n == i) = false := by
          simp only [beq_eq_false_iff_ne, ne_eq]
          omega
        simp [hne]
      · have hin : i = n := by omega
        subst hin
        have h1 : (List.range i).filter (fun j => j == i) = [] := by
          rw [List.filter_eq_nil_iff]
          intro j hj
          have := List.mem_range.mp hj
          simp only [beq_iff_eq]
          omega
        simp [h1]

theorem filter_fanSaves (nw i : Nat) (hi : i < nw) (l : List (String × Value)) (H : String) :
    (fanSaves nw l).filter (fun e => e.1 == i && e.2.1 == H) =
      (l.filter (fun s => s.1 == H)).map (fun s => (i, s.1, dumps s.2)) := by
  induction l with
  | nil => rfl
  | cons s r ih =>
      show ((List.range nw).map (fun j => (j, s.1, dumps s.2)) ++ fanSaves nw r).filter _ = _
      rw [List.filter_append, ih, List.filter_map]
      by_cases hH : (s.1 == H) = true
      · have hpred : ((fun (e : Nat × String × String) => e.1 == i && e.2.1 == H) ∘
            (fun j => (j, s.1, dumps s.2))) = fun j => j == i := by
          funext j
          simp [Function.comp, hH]
        rw [hpred, range_filter_eq nw i hi]
        simp [hH]
      · have hHf : (s.1 == H) = false := by
          revert hH
          cases s.1 == H <;> simp
        have hpred : ((fun (e : Nat × String × String) => e.1 == i && e.2.1 == H) ∘
            (fun j => (j, s.1, dumps s.2))) = fun _ => false := by
          funext j
          simp [Function.comp, hHf]
        rw [hpred]
        simp [hHf]

/-- C2: decomposing `{"@child": {x: 5}}` produces a root record in which
`@child` is the reference marker `{referencedId: H, speckleType:
"reference"}` (the spec's `type` discriminator is realized as the
`speckleType` key) with `H` the child's own computed hash, the root
record carries the closure field `{H: 1}`, and every write transport
receives exactly one save call for hash `H` whose payload is the child
record `{id: H, x: 5}`. -/
theorem c2_detach_scenario (nw i : Nat) (hi : i < nw) :
    (write_json nw initS c2obj).1 = (c2R, dumps c2rootRec) ∧
    ((write_json nw initS c2obj).2.saves.filter (fun e => e.1 == i && e.2.1 == c2H)) =
      [(i, c2H, dumps c2childRec)] := by
  obtain ⟨h1, h2⟩ := write_json_eq nw initS c2obj
  constructor
  · rw [h1]
    rfl
  · rw [h2]
    have hflat : flatSaves c2obj ++ [(flatHash c2obj, flatRec c2obj)] =
        [(c2H, c2childRec), (c2R, c2rootRec)] := rfl
    have hsnil : (initS.saves : List (Nat × String × String)) = [] := rfl
    rw [hsnil, List.nil_append, hflat, filter_fanSaves nw i hi]
    have hHH : (c2H == c2H) = true := by simp
    have hRH : (c2R == c2H) = false := by decide
    simp [hHH, hRH]

/-- Witness for C2 at one write transport. -/
theorem c2_detach_scenario_witness :
    (0 : Nat) < 1 ∧
    ((write_json 1 initS c2obj).1 = (c2R, dumps c2rootRec) ∧
    ((write_json 1 initS c2obj).2.saves.filter (fun e => e.1 == 0 && e.2.1 == c2H)) =
      [(0, c2H, dumps c2childRec)]) :=
  ⟨Nat.zero_lt_one, c2_detach_scenario 1 0 Nat.zero_lt_one⟩

/-! ### Claim C5: the content hash -/

/-- A record's content: its fields other than `id`. -/
def vEraseId : Value → Value
  | .dict es => .dict (alPop es "id")
  | v => v

/-- The serializer state `write_json` hands to `traverse_base`: all
traversal attributes reset and the root marked for detachment. -/
def resetW (σ : SState) : SState :=
  { σ with detach_lineage := [true], lineage := [], family_tree := [], closure_table := [] }

theorem WfS.resetW (σ : SState) : WfS (resetW σ) := by
  refine ⟨?_, ?_, ?_⟩
  · exact List.nodup_nil
  · intro t ht
    exact absurd ht (List.not_mem_nil t)
  · intro p hp
    exact absurd hp (List.not_mem_nil p)

def c5obj1 : List (String × Value) := [("id", .str "me"), ("a", .int 1)]

def c5obj2 : List (String × Value) := [("a", .int 1)]

/-- C5 counterexample: the id is not a function of the record's fields
other than `id`.  The objects `{id: "me", a: 1}` and `{a: 1}` produce
records whose contents apart from `id` coincide (both are `{a: 1}`), yet
their ids differ, because an object's own `id` property overwrites the
empty `id` slot of the builder before hashing. -/
theorem c5_hash_counterexample :
    vEraseId (traverse_base 1 (resetW initS) c5obj1).1.2 =
      vEraseId (traverse_base 1 (resetW initS) c5obj2).1.2 ∧
    (traverse_base 1 (resetW initS) c5obj1).1.1 ≠
      (traverse_base 1 (resetW initS) c5obj2).1.1 := by
  constructor
  · rfl
  · decide

theorem alSet_head_eq {α : Type} (k : String) (v0 v : α) (t : List (String × α)) :
    alSet ((k, v0) :: t) k v = (k, v) :: t := by
  simp [alSet]

theorem alSet_cons_ne {α : Type} {k0 k : String} (h : k0 ≠ k) (v0 v : α)
    (t : List (String × α)) : alSet ((k0, v0) :: t) k v = (k0, v0) :: alSet t k v := by
  simp [alSet, h]

theorem alSet_mem {α : Type} : ∀ (t : List (String × α)) (k : String) (v : α) (e : String × α),
    e ∈ alSet t k v → e ∈ t ∨ e.1 = k
  | [], k, v, e, he => by
      simp only [alSet, List.mem_singleton] at he
      exact .inr (by rw [he])
  | (k0, v0) :: t, k, v, e, he => by
      by_cases h : k0 = k
      · rw [h, alSet_head_eq] at he
        rcases List.mem_cons.mp he with h1 | h1
        · exact .inr (by rw [h1])
        · exact .inl (List.mem_cons_of_mem _ h1)
      · rw [alSet_cons_ne h] at he
        rcases List.mem_cons.mp he with h1 | h1
        · exact .inl (by rw [h1]; exact List.mem_cons_self _ _)
        · rcases alSet_mem t k v e h1 with h2 | h2
          · exact .inl (List.mem_cons_of_mem _ h2)
          · exact .inr h2

theorem alSet_append_of_none {α : Type} :
    ∀ (t : List (String × α)) (k : String) (v : α), (∀ e ∈ t, e.1 ≠ k) →
    alSet t k v = t ++ [(k, v)]
  | [], k, v, _ => rfl
  | (k0, v0) :: t, k, v, h => by
      have h0 : k0 ≠ k := h (k0, v0) (List.mem_cons_self _ _)
      rw [alSet_cons_ne h0, alSet_append_of_none t k v (fun e he => h e (List.mem_cons_of_mem _ he))]
      rfl

/-- Keys set by the property loop keep the tail invariant: no
`__`-prefixed key and no `id` key ever enters the tail. -/
theorem shape_step (t : List (String × Value)) (prop : String) (w : Value)
    (ht : ∀ e ∈ t, pyStartsWith e.1 "__" = false ∧ e.1 ≠ "id")
    (hp : pyStartsWith prop "__" = false) (hpid : prop ≠ "id") :
    ∀ e ∈ alSet t prop w, pyStartsWith e.1 "__" = false ∧ e.1 ≠ "id" := by
  intro e he
  rcases alSet_mem t prop w e he with h | h
  · exact ht e h
  · rw [h]
    exact ⟨hp, hpid⟩

/-- Shape of the builder produced by the property loop of an object with
no `id` property: the head `id` entry is untouched and the tail only
holds surviving property keys (not `__`-prefixed, not `id`). -/
theorem flatProps_shape : ∀ (ps t : List (String × Value)) (v : Value),
    (∀ p ∈ ps, p.1 ≠ "id") → (∀ e ∈ t, pyStartsWith e.1 "__" = false ∧ e.1 ≠ "id") →
    ∃ t', (flatProps (("id", v) :: t) ps).1 = ("id", v) :: t' ∧
      ∀ e ∈ t', pyStartsWith e.1 "__" = false ∧ e.1 ≠ "id"
  | [], t, v, _, ht => ⟨t, rfl, ht⟩
  | (prop, .int n) :: rest, t, v, hid, ht => by
      have hpid : prop ≠ "id" := hid (prop, .int n) (List.mem_cons_self _ _)
      have hid' : ∀ p ∈ rest, p.1 ≠ "id" := fun p hp => hid p (List.mem_cons_of_mem _ hp)
      by_cases hskip : (falsy (.int n) || pyStartsWith prop "__") = true
      · simp only [flatProps, hskip, if_true]
        exact flatProps_shape rest t v hid' ht
      · have hf : (falsy (.int n) || pyStartsWith prop "__") = false := by
          revert hskip
          cases falsy (.int n) || pyStartsWith prop "__" <;> simp
        simp only [flatProps, hf, Bool.false_eq_true, if_false]
        rw [alSet_cons_ne (fun hh => hpid hh.symm)]
        exact flatProps_shape rest (alSet t prop (.int n)) v hid'
          (shape_step t prop _ ht (Bool.or_eq_false_iff.mp hf).2 hpid)
  | (prop, .str sv) :: rest, t, v, hid, ht => by
      have hpid : prop ≠ "id" := hid (prop, .str sv) (List.mem_cons_self _ _)
      have hid' : ∀ p ∈ rest, p.1 ≠ "id" := fun p hp => hid p (List.mem_cons_of_mem _ hp)
      by_cases hskip : (falsy (.str sv) || pyStartsWith prop "__") = true
      · simp only [flatProps, hskip, if_true]
        exact flatProps_shape rest t v hid' ht
      · have hf : (falsy (.str sv) || pyStartsWith prop "__") = false := by
          revert hskip
          cases falsy (.str sv) || pyStartsWith prop "__" <;> simp
        simp only [flatProps, hf, Bool.false_eq_true, if_false]
        rw [alSet_cons_ne (fun hh => hpid hh.symm)]
        exact flatProps_shape rest (alSet t prop (.str sv)) v hid'
          (shape_step t prop _ ht (Bool.or_eq_false_iff.mp hf).2 hpid)
  | (prop, .bool b) :: rest, t, v, hid, ht => by
      have hpid : prop ≠ "id" := hid (prop, .bool b) (List.mem_cons_self _ _)
      have hid' : ∀ p ∈ rest, p.1 ≠ "id" := fun p hp => hid p (List.mem_cons_of_mem _ hp)
      by_cases hskip : (falsy (.bool b) || pyStartsWith prop "__") = true
      · simp only [flatProps, hskip, if_true]
        exact flatProps_shape rest t v hid' ht
      · have hf : (falsy (.bool b) || pyStartsWith prop "__") = false := by
          revert hskip
          cases falsy (.bool b) || pyStartsWith prop "__" <;> simp
        simp only [flatProps, hf, Bool.false_eq_true, if_false]
        rw [alSet_cons_ne (fun hh => hpid hh.symm)]
        exact flatProps_shape rest (alSet t prop (.bool b)) v hid'
          (shape_step t prop _ ht (Bool.or_eq_false_iff.mp hf).2 hpid)
  | (prop, .null) :: rest, t, v, hid, ht => by
      have hid' : ∀ p ∈ rest, p.1 ≠ "id" := fun p hp => hid p (List.mem_cons_of_mem _ hp)
      have hskip : (falsy .null || pyStartsWith prop "__") = true := by simp [falsy]
      simp only [flatProps, hskip, if_true]
      exact flatProps_shape rest t v hid' ht
  | (prop, .list xs) :: rest, t, v, hid, ht => by
      have hpid : prop ≠ "id" := hid (prop, .list xs) (List.mem_cons_self _ _)
      have hid' : ∀ p ∈ rest, p.1 ≠ "id" := fun p hp => hid p (List.mem_cons_of_mem _ hp)
      by_cases hskip : (falsy (.list xs) || pyStartsWith prop "__") = true
      · simp only [flatProps, hskip, if_true]
        exact flatProps_shape rest t v hid' ht
      · have hf : (falsy (.list xs) || pyStartsWith prop "__") = false := by
          revert hskip
          cases falsy (.list xs) || pyStartsWith prop "__" <;> simp
        simp only [flatProps, hf, Bool.false_eq_true, if_false]
        rw [alSet_cons_ne (fun hh => hpid hh.symm)]
        obtain ⟨t', h1, h2⟩ := flatProps_shape rest
          (alSet t prop (flatValue (.list xs) false).1) v hid'
          (shape_step t prop _ ht (Bool.or_eq_false_iff.mp hf).2 hpid)
        exact ⟨t', h1, h2⟩
  | (prop, .dict es) :: rest, t, v, hid, ht => by
      have hpid : prop ≠ "id" := hid (prop, .dict es) (List.mem_cons_self _ _)
      have hid' : ∀ p ∈ rest, p.1 ≠ "id" := fun p hp => hid p (List.mem_cons_of_mem _ hp)
      by_cases hskip : (falsy (.dict es) || pyStartsWith prop "__") = true
      · simp only [flatProps, hskip, if_true]
        exact flatProps_shape rest t v hid' ht
      · have hf : (falsy (.dict es) || pyStartsWith prop "__") = false := by
          revert hskip
          cases falsy (.dict es) || pyStartsWith prop "__" <;> simp
        simp only [flatProps, hf, Bool.false_eq_true, if_false]
        rw [alSet_cons_ne (fun hh => hpid hh.symm)]
        obtain ⟨t', h1, h2⟩ := flatProps_shape rest
          (alSet t prop (flatValue (.dict es) false).1) v hid'
          (shape_step t prop _ ht (Bool.or_eq_false_iff.mp hf).2 hpid)
        exact ⟨t', h1, h2⟩
  | (prop, .base cs) :: rest, t, v, hid, ht => by
      have hpid : prop ≠ "id" := hid (prop, .base cs) (List.mem_cons_self _ _)
      have hid' : ∀ p ∈ rest, p.1 ≠ "id" := fun p hp => hid p (List.mem_cons_of_mem _ hp)
      by_cases hskip : (falsy (.base cs) || pyStartsWith prop "__") = true
      · simp only [flatProps, hskip, if_true]
        exact flatProps_shape rest t v hid' ht
      · have hf : (falsy (.base cs) || pyStartsWith prop "__") = false := by
          revert hskip
          cases falsy (.base cs) || pyStartsWith prop "__" <;> simp
        simp only [flatProps, hf, Bool.false_eq_true, if_false]
        by_cases hdet : pyStartsWith prop "@" = true
        · simp only [hdet, if_true]
          rw [alSet_cons_ne (fun hh => hpid hh.symm)]
          obtain ⟨t', h1, h2⟩ := flatProps_shape rest
            (alSet t prop (refMarker (getIdStr (flatValue (.base cs) (pyStartsWith prop "@")).1)))
            v hid' (shape_step t prop _ ht (Bool.or_eq_false_iff.mp hf).2 hpid)
          exact ⟨t', h1, h2⟩
        · have hdf : pyStartsWith prop "@" = false := by
            revert hdet
            cases pyStartsWith prop "@" <;> simp
          simp only [hdf, Bool.false_eq_true, if_false]
          rw [alSet_cons_ne (fun hh => hpid hh.symm)]
          obtain ⟨t', h1, h2⟩ := flatProps_shape rest
            (alSet t prop (flatValue (.base cs) (pyStartsWith prop "@")).1) v hid'
            (shape_step t prop _ ht (Bool.or_eq_false_iff.mp hf).2 hpid)
          exact ⟨t', h1, h2⟩

theorem alPop_head {α : Type} (k : String) (v : α) (t : List (String × α)) :
    alPop ((k, v) :: t) k = t := by
  simp [alPop]

theorem sealFlat_hash (r : List (String × Value) × List (String × Nat) ×
    List (String × Value)) : (sealFlat r).1 = hash_obj (.dict r.1) := by
  unfold sealFlat
  dsimp only

theorem sealFlat_rec (r : List (String × Value) × List (String × Nat) ×
    List (String × Value)) :
    (sealFlat r).2.1 = .dict (if r.2.1.isEmpty then alSet r.1 "id" (.str (sealFlat r).1)
      else alSet (alSet r.1 "id" (.str (sealFlat r).1)) "__closure"
        (.dict ((mergeMin [] r.2.1).map (fun e => (e.1, Value.int (e.2 : Int)))))) := by
  rw [sealFlat_hash]
  unfold sealFlat
  dsimp only

/-- The record of an object without an `id` property: filled `id` first,
then the surviving property entries, then possibly the closure entry. -/
theorem flatRec_split (ps : List (String × Value)) (hid : ∀ p ∈ ps, p.1 ≠ "id") :
    ∃ t', (flatProps [("id", .str "")] ps).1 = ("id", .str "") :: t' ∧
      (∀ e ∈ t', pyStartsWith e.1 "__" = false ∧ e.1 ≠ "id") ∧
      (flatRec ps = .dict (("id", .str (flatHash ps)) :: t') ∨
       ∃ c, flatRec ps = .dict ((("id", .str (flatHash ps)) :: t') ++ [("__closure", c)])) := by
  obtain ⟨t', h1, h2⟩ := flatProps_shape ps [] (.str "")
    hid (fun e he => absurd he (List.not_mem_nil e))
  refine ⟨t', h1, h2, ?_⟩
  have hcl : ∀ e ∈ ("id", Value.str (flatHash ps)) :: t', e.1 ≠ "__closure" := by
    intro e he
    rcases List.mem_cons.mp he with h | h
    · rw [h]
      intro hx
      simp at hx
    · intro hx
      have h3 := (h2 e h).1
      rw [hx] at h3
      exact absurd h3 (by decide)
  have hrec : flatRec ps = (sealFlat (flatProps [("id", .str "")] ps)).2.1 := by
    unfold flatRec flatBase
    rfl
  have hfh : (sealFlat (flatProps [("id", .str "")] ps)).1 = flatHash ps := by
    unfold flatHash flatBase
    rfl
  rw [hrec, sealFlat_rec, hfh, h1, alSet_head_eq]
  by_cases hevs : (flatProps [("id", .str "")] ps).2.1.isEmpty = true
  · rw [if_pos hevs]
    left
    rfl
  · rw [if_neg hevs]
    right
    exact ⟨_, congrArg Value.dict (alSet_append_of_none _ _ _ hcl)⟩

/-- The content hash of an object without an `id` property is a function
of the record's fields other than `id`. -/
theorem flatHash_content (ps1 ps2 : List (String × Value))
    (h1 : ∀ p ∈ ps1, p.1 ≠ "id") (h2 : ∀ p ∈ ps2, p.1 ≠ "id")
    (hc : vEraseId (flatRec ps1) = vEraseId (flatRec ps2)) :
    flatHash ps1 = flatHash ps2 := by
  obtain ⟨t1, e1, q1, d1⟩ := flatRec_split ps1 h1
  obtain ⟨t2, e2, q2, d2⟩ := flatRec_split ps2 h2
  have hh1 : flatHash ps1 = hash_obj (.dict (("id", .str "") :: t1)) := by
    have hb : flatHash ps1 = (sealFlat (flatProps [("id", .str "")] ps1)).1 := by
      unfold flatHash flatBase
      rfl
    rw [hb, sealFlat_hash, e1]
  have hh2 : flatHash ps2 = hash_obj (.dict (("id", .str "") :: t2)) := by
    have hb : flatHash ps2 = (sealFlat (flatProps [("id", .str "")] ps2)).1 := by
      unfold flatHash flatBase
      rfl
    rw [hb, sealFlat_hash, e2]
  have hmem : ∀ (t : List (String × Value)) (c : Value),
      (∀ e ∈ t, pyStartsWith e.1 "__" = false ∧ e.1 ≠ "id") →
      ("__closure", c) ∉ t := by
    intro t c hq hmem
    have hpf := (hq _ hmem).1
    dsimp only at hpf
    exact absurd hpf (by decide)
  have key : t1 = t2 := by
    rcases d1 with d1 | ⟨c1, d1⟩ <;> rcases d2 with d2 | ⟨c2, d2⟩
    · rw [d1, d2] at hc
      simp only [vEraseId] at hc
      rw [alPop_head, alPop_head] at hc
      injection hc
    · rw [d1, d2] at hc
      simp only [vEraseId] at hc
      rw [show (("id", Value.str (flatHash ps2)) :: t2) ++ [("__closure", c2)] =
        ("id", Value.str (flatHash ps2)) :: (t2 ++ [("__closure", c2)]) from rfl] at hc
      rw [alPop_head, alPop_head] at hc
      have ht : t1 = t2 ++ [("__closure", c2)] := by injection hc
      have : ("__closure", c2) ∈ t1 := by
        rw [ht]
        exact List.mem_append_right _ (List.mem_singleton.mpr rfl)
      exact absurd this (hmem t1 c2 q1)
    · rw [d1, d2] at hc
      simp only [vEraseId] at hc
      rw [show (("id", Value.str (flatHash ps1)) :: t1) ++ [("__closure", c1)] =
        ("id", Value.str (flatHash ps1)) :: (t1 ++ [("__closure", c1)]) from rfl] at hc
      rw [alPop_head, alPop_head] at hc
      have ht : t1 ++ [("__closure", c1)] = t2 := by injection hc
      have : ("__closure", c1) ∈ t2 := by
        rw [← ht]
        exact List.mem_append_right _ (List.mem_singleton.mpr rfl)
      exact absurd this (hmem t2 c1 q2)
    · rw [d1, d2] at hc
      simp only [vEraseId] at hc
      rw [show (("id", Value.str (flatHash ps1)) :: t1) ++ [("__closure", c1)] =
        ("id", Value.str (flatHash ps1)) :: (t1 ++ [("__closure", c1)]) from rfl,
        show (("id", Value.str (flatHash ps2)) :: t2) ++ [("__closure", c2)] =
        ("id", Value.str (flatHash ps2)) :: (t2 ++ [("__closure", c2)]) from rfl] at hc
      rw [alPop_head, alPop_head] at hc
      have ht : t1 ++ [("__closure", c1)] = t2 ++ [("__closure", c2)] := by injection hc
      exact (List.append_inj' ht rfl).1
  rw [hh1, hh2, key]

/-- The hash a level assigns is the content hash of the builder dict in
its pre-fill form: the `id` slot still holding `""`. -/
theorem flatHash_eq (ps : List (String × Value)) :
    flatHash ps = hash_obj (.dict (flatProps [("id", .str "")] ps).1) := by
  have hb : flatHash ps = (sealFlat (flatProps [("id", .str "")] ps)).1 := by
    unfold flatHash flatBase
    rfl
  rw [hb, sealFlat_hash]

/-- C5, amended: for objects that carry no `id` property of their own,
the id assigned to the record equals the first 32 hexadecimal characters
of the SHA-256 digest of the canonical serialization of the builder in
its pre-fill form (the `id` slot still `""`), and the id is a function of
the record's content apart from `id`: two such objects whose records
coincide outside `id` receive the identical id.  (The restriction to
objects without an own `id` property is necessary: a truthy `id` property
of the object overwrites the empty placeholder before hashing, see the
counterexample.) -/
theorem c5_hash_amended (nw : Nat) (σ1 σ2 : SState) (ps1 ps2 : List (String × Value))
    (h1 : ∀ p ∈ ps1, p.1 ≠ "id") (h2 : ∀ p ∈ ps2, p.1 ≠ "id")
    (hc : vEraseId (traverse_base nw (resetW σ1) ps1).1.2 =
          vEraseId (traverse_base nw (resetW σ2) ps2).1.2) :
    (traverse_base nw (resetW σ1) ps1).1.1 =
      (sha256Hex (dumps (.dict (flatProps [("id", .str "")] ps1).1))).take 32 ∧
    (traverse_base nw (resetW σ1) ps1).1.1 =
      (traverse_base nw (resetW σ2) ps2).1.1 := by
  have e1 := (traverse_base_eq nw (resetW σ1) ps1 true [] (WfS.resetW σ1) rfl).1
  have e2 := (traverse_base_eq nw (resetW σ2) ps2 true [] (WfS.resetW σ2) rfl).1
  have r1 : (traverse_base nw (resetW σ1) ps1).1.1 = flatHash ps1 := by rw [e1]
  have r2 : (traverse_base nw (resetW σ2) ps2).1.1 = flatHash ps2 := by rw [e2]
  have v1 : (traverse_base nw (resetW σ1) ps1).1.2 = flatRec ps1 := by rw [e1]
  have v2 : (traverse_base nw (resetW σ2) ps2).1.2 = flatRec ps2 := by rw [e2]
  rw [v1, v2] at hc
  constructor
  · rw [r1, flatHash_eq]
    rfl
  · rw [r1, r2]
    exact flatHash_content ps1 ps2 h1 h2 hc

theorem c5_hash_amended_witness :
    (∀ p ∈ c5obj2, p.1 ≠ "id") ∧
    ((traverse_base 1 (resetW initS) c5obj2).1.1 =
      (sha256Hex (dumps (.dict (flatProps [("id", Value.str "")] c5obj2).1))).take 32 ∧
     (traverse_base 1 (resetW initS) c5obj2).1.1 =
      (traverse_base 1 (resetW initS) c5obj2).1.1) :=
  ⟨by decide, c5_hash_amended 1 initS initS c5obj2 c5obj2 (by decide) (by decide) rfl⟩

theorem alGet_not_mem {α : Type} : ∀ (es : List (String × α)) (k : String),
    k ∉ es.map Prod.fst → alGet es k = none
  | [], _, _ => rfl
  | (k', v') :: r, k, h => by
      simp only [List.map_cons, List.mem_cons] at h
      push_neg at h
      have hne : ¬ k' = k := fun e => h.1 e.symm
      simp only [alGet]
      rw [if_neg hne]
      exact alGet_not_mem r k h.2

theorem alGet_alPop {α : Type} : ∀ (es : List (String × α)) (k : String),
    (es.map Prod.fst).Nodup → alGet (alPop es k) k = none
  | [], _, _ => rfl
  | (k', v') :: r, k, h => by
      simp only [List.map_cons, List.nodup_cons] at h
      by_cases e : k' = k
      · simp only [alPop, if_pos e]
        subst e
        exact alGet_not_mem r k' h.1
      · simp only [alPop, if_neg e, alGet, if_neg e]
        exact alGet_alPop r k h.2

/-- C7: on a record that carries a `__closure` field (a dict with
unique keys, as Python dicts are), recomposition without a read
transport aborts at once with the configuration error — no property is
processed and nothing is requested from any transport — while with a
read transport configured it proceeds into the property loop with the
output object seeded with `totalChildrenCount` set to the closure
mapping's entry count, over the record with the `__closure` field
removed, so the closure is never treated as an ordinary property. -/
theorem c7_closure_transport (fuel : Nat) (es cs : List (String × Value))
    (rt : ReadTransport) (hnd : (es.map Prod.fst).Nodup)
    (hcl : alGet es "__closure" = some (.dict cs)) :
    recompose_base none (fuel + 1) (.dict es) = (.error (.speckle noTransportMsg), []) ∧
    recompose_base (some rt) (fuel + 1) (.dict es) =
      recompose_props (some rt) fuel [("totalChildrenCount", .int cs.length)]
        (alPop es "__closure") ∧
    hasKey (alPop es "__closure") "__closure" = false := by
  have hk : hasKey es "__closure" = true := by rw [hasKey, hcl]; rfl
  have hne : falsy (.dict es) = false := by
    cases es with
    | nil => simp [alGet] at hcl
    | cons a r => rfl
  refine ⟨?_, ?_, ?_⟩
  · simp only [recompose_base, hne, Bool.false_eq_true, if_false, hk, if_true]
  · simp only [recompose_base, hne, Bool.false_eq_true, if_false, hk, if_true, hcl,
      Option.getD, pyLen]
  · rw [hasKey, alGet_alPop es _ hnd]
    rfl

def c7es : List (String × Value) := [("__closure", .dict [("h", .int 1)]), ("a", .int 7)]

theorem c7_closure_transport_witness :
    ((c7es.map Prod.fst).Nodup ∧ alGet c7es "__closure" = some (.dict [("h", Value.int 1)])) ∧
    (recompose_base none 1 (.dict c7es) = (.error (.speckle noTransportMsg), []) ∧
     recompose_base (some ⟨"t", fun _ => none⟩) 1 (.dict c7es) =
       recompose_props (some ⟨"t", fun _ => none⟩) 0
         [("totalChildrenCount", .int ([("h", Value.int 1)] : List (String × Value)).length)]
         (alPop c7es "__closure") ∧
     hasKey (alPop c7es "__closure") "__closure" = false) :=
  ⟨⟨by decide, rfl⟩,
   c7_closure_transport 0 c7es [("h", Value.int 1)] ⟨"t", fun _ => none⟩ (by decide) rfl⟩

/-- C6 counterexample: a reference marker handed to `recompose_base` as
the root record does not trigger reference resolution at all.  Even with
a read transport that returns nothing for every id, recomposition of
`{referencedId: "zz"}` succeeds — `referencedId` is kept as an ordinary
string property, no id is requested from the transport, and no error is
raised.  (The resolution error only fires for markers sitting in
property values, see the amended theorem.) -/
theorem c6_resolution_counterexample :
    recompose_base (some ⟨"t", fun _ => none⟩) 3 (.dict [("referencedId", .str "zz")]) =
      (.ok (some (.base [("referencedId", .str "zz")])), []) := rfl

/-- C6, amended: when a reference marker `{referencedId: H}` occurs as a
property value and the configured read transport returns nothing for
`H`, recomposition fails with the resolution `SpeckleException` whose
message names both `H` and the transport's name; exactly one id (`H`)
was requested — the failure is raised to the caller without an internal
retry. -/
theorem c6_resolution_error (fuel : Nat) (H : String) (rt : ReadTransport)
    (hg : rt.get H = none) :
    recompose_base (some rt) (fuel + 2) (.dict [("a", .dict [("referencedId", .str H)])]) =
      (.error (.speckle (refErrMsg H rt.name)), [H]) ∧
    (∃ pre post, refErrMsg H rt.name = pre ++ H ++ post) ∧
    (∃ pre, refErrMsg H rt.name = pre ++ rt.name) := by
  have h1 : recompose_base (some rt) (fuel + 2) (.dict [("a", .dict [("referencedId", .str H)])]) =
      recompose_props (some rt) (fuel + 1) [] [("a", .dict [("referencedId", .str H)])] := rfl
  have hp : recompose_props (some rt) (fuel + 1) [] [("a", .dict [("referencedId", .str H)])] =
      (match rt.get H with
       | none => (.error (.speckle (refErrMsg H rt.name)), [H])
       | some child =>
           let cr := recompose_base (some rt) fuel child
           match cr.1 with
           | .error e => (.error e, H :: cr.2)
           | .ok co =>
               let rr := recompose_props (some rt) fuel
                 (alSet [] "a" (co.getD .null)) []
               (rr.1, H :: cr.2 ++ rr.2)) := rfl
  rw [hg] at hp
  refine ⟨h1.trans hp, ?_, ?_⟩
  · exact ⟨"Could not find the referenced child object of id `",
      "` in the given read transport: " ++ rt.name, String.append_assoc _ _ _⟩
  · exact ⟨"Could not find the referenced child object of id `" ++ H ++
      "` in the given read transport: ", rfl⟩

def c6rt : ReadTransport := ⟨"t", fun _ => none⟩

theorem c6_resolution_error_witness :
    c6rt.get "zz" = none ∧
    (recompose_base (some c6rt) 2 (.dict [("a", .dict [("referencedId", .str "zz")])]) =
      (.error (.speckle (refErrMsg "zz" c6rt.name)), ["zz"]) ∧
     (∃ pre post, refErrMsg "zz" c6rt.name = pre ++ "zz" ++ post) ∧
     (∃ pre, refErrMsg "zz" c6rt.name = pre ++ c6rt.name)) :=
  ⟨rfl, c6_resolution_error 0 "zz" c6rt rfl⟩

theorem filter_fanSaves_sink (nw i : Nat) (hi : i < nw) (l : List (String × Value)) :
    (fanSaves nw l).filter (fun e => e.1 == i) = l.map (fun s => (i, s.1, dumps s.2)) := by
  induction l with
  | nil => rfl
  | cons s r ih =>
      show ((List.range nw).map (fun j => (j, s.1, dumps s.2)) ++ fanSaves nw r).filter _ = _
      rw [List.filter_append, ih, List.filter_map]
      have hpred : ((fun (e : Nat × String × String) => e.1 == i) ∘
          (fun j => (j, s.1, dumps s.2))) = fun j => j == i := by
        funext j
        simp [Function.comp]
      rw [hpred, range_filter_eq nw i hi]
      rfl

def c8props : List (String × Value) := [("a", .int 1)]

/-- C8 counterexample: the engine writes the root record itself.  For
the minimal object `{a: 1}` — which detaches nothing — the single
configured write sink nonetheless receives exactly one save call,
carrying precisely the returned root hash and serialized root record:
`write_json` marks the root for detachment unconditionally, so the root
is both returned to the caller and written by the engine. -/
theorem c8_root_written_counterexample :
    (write_json 1 initS c8props).2.saves =
      [(0, (write_json 1 initS c8props).1.1, (write_json 1 initS c8props).1.2)] := rfl

/-- C8, amended: during one `write_json` call every configured write
sink receives, in order, exactly the logical save sequence of the
traversal: the detached descendant records (`flatSaves` — one entry per
record sealed under a set detach flag; inlined records never appear),
followed by the root record itself, since the engine resets the detach
lineage to `[True]` and thereby always marks the root detached.  The
root's hash and serialized form are returned to the caller as well. -/
theorem c8_detached_saves (nw : Nat) (σ : SState) (props : List (String × Value))
    (i : Nat) (hi : i < nw) :
    (write_json nw σ props).1 = (flatHash props, dumps (flatRec props)) ∧
    ((write_json nw σ props).2.saves.filter (fun e => e.1 == i)) =
      (σ.saves.filter (fun e => e.1 == i)) ++
        (flatSaves props ++ [(flatHash props, flatRec props)]).map
          (fun s => (i, s.1, dumps s.2)) := by
  obtain ⟨h1, h2⟩ := write_json_eq nw σ props
  refine ⟨h1, ?_⟩
  rw [h2, List.filter_append, filter_fanSaves_sink nw i hi]

theorem c8_detached_saves_witness :
    0 < 1 ∧
    ((write_json 1 initS c8props).1 = (flatHash c8props, dumps (flatRec c8props)) ∧
     ((write_json 1 initS c8props).2.saves.filter (fun e => e.1 == 0)) =
       (initS.saves.filter (fun e => e.1 == 0)) ++
         (flatSaves c8props ++ [(flatHash c8props, flatRec c8props)]).map
           (fun s => (0, s.1, dumps s.2))) :=
  ⟨by decide, c8_detached_saves 1 initS c8props 0 (by decide)⟩

mutual

theorem one_le_flatProps : ∀ (b ps : List (String × Value)),
    ∀ e ∈ (flatProps b ps).2.1, 1 ≤ e.2
  | b, [] => by
      intro e he
      exact absurd he (List.not_mem_nil e)
  | b, (prop, .int n) :: rest => by
      intro e he
      by_cases hskip : (falsy (.int n) || pyStartsWith prop "__") = true
      · simp only [flatProps, hskip, if_true] at he
        exact one_le_flatProps b rest e he
      · have hf : (falsy (.int n) || pyStartsWith prop "__") = false := by
          revert hskip
          cases falsy (.int n) || pyStartsWith prop "__" <;> simp
        simp only [flatProps, hf, Bool.false_eq_true, if_false] at he
        exact one_le_flatProps (alSet b prop (.int n)) rest e he
  | b, (prop, .str s) :: rest => by
      intro e he
      by_cases hskip : (falsy (.str s) || pyStartsWith prop "__") = true
      · simp only [flatProps, hskip, if_true] at he
        exact one_le_flatProps b rest e he
      · have hf : (falsy (.str s) || pyStartsWith prop "__") = false := by
          revert hskip
          cases falsy (.str s) || pyStartsWith prop "__" <;> simp
        simp only [flatProps, hf, Bool.false_eq_true, if_false] at he
        exact one_le_flatProps (alSet b prop (.str s)) rest e he
  | b, (prop, .bool bv) :: rest => by
      intro e he
      by_cases hskip : (falsy (.bool bv) || pyStartsWith prop "__") = true
      · simp only [flatProps, hskip, if_true] at he
        exact one_le_flatProps b rest e he
      · have hf : (falsy (.bool bv) || pyStartsWith prop "__") = false := by
          revert hskip
          cases falsy (.bool bv) || pyStartsWith prop "__" <;> simp
        simp only [flatProps, hf, Bool.false_eq_true, if_false] at he
        exact one_le_flatProps (alSet b prop (.bool bv)) rest e he
  | b, (prop, .null) :: rest => by
      intro e he
      have hskip : (falsy .null || pyStartsWith prop "__") = true := by simp [falsy]
      simp only [flatProps, hskip, if_true] at he
      exact one_le_flatProps b rest e he
  | b, (prop, .list xs) :: rest => by
      intro e he
      by_cases hskip : (falsy (.list xs) || pyStartsWith prop "__") = true
      · simp only [flatProps, hskip, if_true] at he
        exact one_le_flatProps b rest e he
      · have hf : (falsy (.list xs) || pyStartsWith prop "__") = false := by
          revert hskip
          cases falsy (.list xs) || pyStartsWith prop "__" <;> simp
        simp only [flatProps, hf, Bool.false_eq_true, if_false] at he
        rcases List.mem_append.mp he with h | h
        · exact one_le_flatValue (.list xs) false e h
        · exact one_le_flatProps (alSet b prop (flatValue (.list xs) false).1) rest e h
  | b, (prop, .dict es) :: rest => by
      intro e he
      by_cases hskip : (falsy (.dict es) || pyStartsWith prop "__") = true
      · simp only [flatProps, hskip, if_true] at he
        exact one_le_flatProps b rest e he
      · have hf : (falsy (.dict es) || pyStartsWith prop "__") = false := by
          revert hskip
          cases falsy (.dict es) || pyStartsWith prop "__" <;> simp
        simp only [flatProps, hf, Bool.false_eq_true, if_false] at he
        rcases List.mem_append.mp he with h | h
        · exact one_le_flatValue (.dict es) false e h
        · exact one_le_flatProps (alSet b prop (flatValue (.dict es) false).1) rest e h
  | b, (prop, .base cs) :: rest => by
      intro e he
      by_cases hskip : (falsy (.base cs) || pyStartsWith prop "__") = true
      · simp only [flatProps, hskip, if_true] at he
        exact one_le_flatProps b rest e he
      · have hf : (falsy (.base cs) || pyStartsWith prop "__") = false := by
          revert hskip
          cases falsy (.base cs) || pyStartsWith prop "__" <;> simp
        simp only [flatProps, hf, Bool.false_eq_true, if_false] at he
        by_cases hdet : pyStartsWith prop "@" = true
        · rw [hdet] at he
          simp only [if_true] at he
          rcases List.mem_append.mp he with h | h
          · rcases List.mem_append.mp h with h1 | h1
            · exact one_le_flatValue (.base cs) true e h1
            · rw [List.mem_singleton.mp h1]
          · exact one_le_flatProps
              (alSet b prop (refMarker (getIdStr (flatValue (.base cs) true).1))) rest e h
        · have hdf : pyStartsWith prop "@" = false := by
            revert hdet
            cases pyStartsWith prop "@" <;> simp
          rw [hdf] at he
          simp only [Bool.false_eq_true, if_false] at he
          rcases List.mem_append.mp he with h | h
          · exact one_le_flatValue (.base cs) false e h
          · exact one_le_flatProps
              (alSet b prop (flatValue (.base cs) false).1) rest e h

theorem one_le_flatValue : ∀ (v : Value) (d : Bool), ∀ e ∈ (flatValue v d).2.1, 1 ≤ e.2
  | .int n, d => by
      intro e he
      simp only [flatValue] at he
      exact absurd he (List.not_mem_nil e)
  | .str s, d => by
      intro e he
      simp only [flatValue] at he
      exact absurd he (List.not_mem_nil e)
  | .bool b, d => by
      intro e he
      simp only [flatValue] at he
      exact absurd he (List.not_mem_nil e)
  | .null, d => by
      intro e he
      simp only [flatValue] at he
      exact absurd he (List.not_mem_nil e)
  | .list xs, d => by
      intro e he
      simp only [flatValue] at he
      exact one_le_flatList xs e he
  | .dict es, d => by
      intro e he
      simp only [flatValue] at he
      exact one_le_flatDict es e he
  | .base cs, d => by
      intro e he
      simp only [flatValue, shift1] at he
      obtain ⟨x, _, hxe⟩ := List.mem_map.mp he
      rw [← hxe]
      exact Nat.succ_le_succ (Nat.zero_le _)

theorem one_le_flatList : ∀ (xs : List Value), ∀ e ∈ (flatList xs).2.1, 1 ≤ e.2
  | [] => by
      intro e he
      exact absurd he (List.not_mem_nil e)
  | x :: r => by
      intro e he
      simp only [flatList] at he
      rcases List.mem_append.mp he with h | h
      · exact one_le_flatValue x false e h
      · exact one_le_flatList r e h

theorem one_le_flatDict : ∀ (es : List (String × Value)), ∀ e ∈ (flatDict es).2.1, 1 ≤ e.2
  | [] => by
      intro e he
      exact absurd he (List.not_mem_nil e)
  | (k, v) :: r => by
      intro e he
      by_cases hp : isPrim v = true
      · simp only [flatDict, hp, if_true] at he
        exact one_le_flatDict r e he
      · have hpf : isPrim v = false := by
          revert hp
          cases isPrim v <;> simp
        simp only [flatDict, hpf, Bool.false_eq_true, if_false] at he
        rcases List.mem_append.mp he with h | h
        · exact one_le_flatValue v false e h
        · exact one_le_flatDict r e h

end

theorem one_le_insMin : ∀ (l : List (String × Nat)) (ref : String) (d : Nat),
    (∀ e ∈ l, 1 ≤ e.2) → 1 ≤ d → ∀ e ∈ insMin l ref d, 1 ≤ e.2
  | [], ref, d, _, hd, e, he => by
      rw [List.mem_singleton.mp he]
      exact hd
  | (k, v) :: r, ref, d, hl, hd, e, he => by
      by_cases hk : k = ref
      · simp only [insMin, if_pos hk] at he
        rcases List.mem_cons.mp he with h | h
        · rw [h]
          by_cases hvd : v > d
          · simpa [hvd] using hd
          · simpa [hvd] using hl (k, v) (List.mem_cons_self _ _)
        · exact hl e (List.mem_cons_of_mem _ h)
      · simp only [insMin, if_neg hk] at he
        rcases List.mem_cons.mp he with h | h
        · rw [h]
          exact hl (k, v) (List.mem_cons_self _ _)
        · exact one_le_insMin r ref d (fun x hx => hl x (List.mem_cons_of_mem _ hx)) hd e h

theorem one_le_mergeMin : ∀ (evs acc : List (String × Nat)),
    (∀ e ∈ acc, 1 ≤ e.2) → (∀ e ∈ evs, 1 ≤ e.2) → ∀ e ∈ mergeMin acc evs, 1 ≤ e.2
  | [], acc, ha, _, e, he => ha e he
  | x :: r, acc, ha, hx, e, he => by
      have hstep : mergeMin acc (x :: r) = mergeMin (insMin acc x.1 x.2) r := rfl
      rw [hstep] at he
      exact one_le_mergeMin r (insMin acc x.1 x.2)
        (one_le_insMin acc x.1 x.2 ha (hx x (List.mem_cons_self _ _)))
        (fun y hy => hx y (List.mem_cons_of_mem _ hy)) e he

/-- The detach events of a level are the events its property loop
produced. -/
theorem flatEvents_eq (ps : List (String × Value)) :
    flatEvents ps = (flatProps [("id", .str "")] ps).2.1 := by
  unfold flatEvents flatBase sealFlat
  dsimp only

/-- C4, amended: whenever a level records any detach events, its record
carries a `__closure` field equal to the minimum-merge of those events,
and every recorded depth is a positive integer ≥ 1.  The depth of an
event is the number of `Base`-nesting levels crossed from the ancestor
down to the detached descendant — every intermediate `Base` object
counts one level whether it is detached or inlined (the detach stack is
pushed for every `Base` child), not only detach boundaries; the
counterexample separates the two readings. -/
theorem c4_closure_depth (nw : Nat) (σ : SState) (props : List (String × Value))
    (hne : flatEvents props ≠ []) :
    (∃ es, (traverse_base nw (resetW σ) props).1.2 = Value.dict es ∧
       alGet es "__closure" = some (.dict ((mergeMin [] (flatEvents props)).map
         (fun e => (e.1, Value.int (e.2 : Int)))))) ∧
    ∀ e ∈ mergeMin [] (flatEvents props), 1 ≤ e.2 := by
  have e1 := (traverse_base_eq nw (resetW σ) props true [] (WfS.resetW σ) rfl).1
  have v1 : (traverse_base nw (resetW σ) props).1.2 = flatRec props := by rw [e1]
  have hrec : flatRec props = (sealFlat (flatProps [("id", .str "")] props)).2.1 := by
    unfold flatRec flatBase
    rfl
  rw [sealFlat_rec, ← flatEvents_eq] at hrec
  have hemp : (flatEvents props).isEmpty = false := by
    cases hE : flatEvents props with
    | nil => exact absurd hE hne
    | cons a l => rfl
  rw [hemp] at hrec
  simp only [Bool.false_eq_true, if_false] at hrec
  refine ⟨⟨_, v1.trans hrec, alGet_alSet_self _ "__closure" _⟩, ?_⟩
  exact one_le_mergeMin (flatEvents props) []
    (fun e h => absurd h (List.not_mem_nil e))
    (fun e he => one_le_flatProps [("id", .str "")] props e
      (by rw [← flatEvents_eq]; exact he))

/-- Lookup of a field of a record value. -/
def vGet : Value → String → Option Value
  | .dict es, k => alGet es k
  | _, _ => none

mutual

/-- Following the spec's words (for comparison with the code's events):
for each detached descendant, the number of detach boundaries crossed on
each path from this level to it.  Only a detached (`@`-prefixed) direct
`Base` property is a boundary; inlined `Base` levels and collections
cross none. -/
def specBProps : List (String × Value) → List (String × Nat)
  | [] => []
  | (prop, value) :: rest =>
      if falsy value || pyStartsWith prop "__" then specBProps rest
      else
        match value with
        | .base cs =>
            if pyStartsWith prop "@" then
              (flatHash cs, 1) :: shift1 (specBValue (.base cs)) ++ specBProps rest
            else specBValue (.base cs) ++ specBProps rest
        | .list xs => specBValue (.list xs) ++ specBProps rest
        | .dict es => specBValue (.dict es) ++ specBProps rest
        | _ => specBProps rest

/-- Spec-worded boundary counts below one value. -/
def specBValue : Value → List (String × Nat)
  | .base cs => specBProps cs
  | .list xs => specBList xs
  | .dict es => specBDict es
  | .int _ => []
  | .str _ => []
  | .bool _ => []
  | .null => []

/-- Spec-worded boundary counts below a list value. -/
def specBList : List Value → List (String × Nat)
  | [] => []
  | x :: r => specBValue x ++ specBList r

/-- Spec-worded boundary counts below a dict value. -/
def specBDict : List (String × Value) → List (String × Nat)
  | [] => []
  | (_, v) :: r => specBValue v ++ specBDict r

end

def c4obj : List (String × Value) := [("c", .base [("@g", .base [("x", .int 5)])])]

def c4H : String := flatHash [("x", .int 5)]

/-- C4 counterexample: for the object `{c: {"@g": {x: 5}}}` — a detached
grandchild `G = {x: 5}` reached through an inlined intermediate `Base` —
the root record's closure records depth 2 for `G`'s hash, while the
minimum number of detach boundaries crossed on the (unique) path from
the root to `G` is 1: the recorded depth counts `Base`-nesting levels,
not detach boundaries. -/
theorem c4_closure_counterexample :
    vGet (traverse_base 1 (resetW initS) c4obj).1.2 "__closure" =
      some (.dict [(c4H, .int 2)]) ∧
    mergeMin [] (specBProps c4obj) = [(c4H, 1)] ∧ (2 : Int) ≠ (1 : Int) := by
  refine ⟨?_, ?_, by decide⟩
  · rfl
  · rfl

theorem c4_closure_depth_witness :
    flatEvents c4obj ≠ [] ∧
    ((∃ es, (traverse_base 1 (resetW initS) c4obj).1.2 = Value.dict es ∧
        alGet es "__closure" = some (.dict ((mergeMin [] (flatEvents c4obj)).map
          (fun e => (e.1, Value.int (e.2 : Int)))))) ∧
     ∀ e ∈ mergeMin [] (flatEvents c4obj), 1 ≤ e.2) :=
  ⟨by decide, c4_closure_depth 1 initS c4obj (by decide)⟩

def c1obj : List (String × Value) := [("a", .dict [("referencedId", .str "zz")])]

def c1rec : Value := (traverse_base 1 (resetW initS) c1obj).1.2

/-- The read source backed by the single write sink of the
decomposition of `c1obj`: it returns the one record that was saved
(none were — only the root, returned and saved, which it serves). -/
def c1rt : ReadTransport :=
  ⟨"t", fun h => if h = (traverse_base 1 (resetW initS) c1obj).1.1 then some c1rec else none⟩

/-- C1 counterexample: the round-trip law fails for the decomposable
object `{a: {referencedId: "zz"}}` — an ordinary dict property whose key
happens to be named `referencedId`.  Decomposition keeps the dict as-is;
recomposition, reading through a source backed by every record written
during decomposition, mistakes it for a reference marker, requests the
id `"zz"` (which no sink ever received), and aborts with a resolution
error instead of reproducing the object's content. -/
theorem c1_roundtrip_counterexample :
    recompose_base (some c1rt) 4 c1rec =
      (.error (.speckle (refErrMsg "zz" "t")), ["zz"]) := rfl

theorem sealFlat_events (r : List (String × Value) × List (String × Nat) ×
    List (String × Value)) : (sealFlat r).2.2.1 = r.2.1 := by
  unfold sealFlat
  dsimp only

theorem sealFlat_saves (r : List (String × Value) × List (String × Nat) ×
    List (String × Value)) : (sealFlat r).2.2.2 = r.2.2 := by
  unfold sealFlat
  dsimp only

/-- The record of a level is the sealed property-loop builder. -/
theorem flatRec_eq (ps : List (String × Value)) :
    flatRec ps = (sealFlat (flatProps [("id", .str "")] ps)).2.1 := by
  unfold flatRec flatBase
  rfl

theorem flatHash_sf (ps : List (String × Value)) :
    (sealFlat (flatProps [("id", .str "")] ps)).1 = flatHash ps := by
  unfold flatHash flatBase
  rfl

/-- The saves of a level are the saves its property loop produced. -/
theorem flatSaves_eq (ps : List (String × Value)) :
    flatSaves ps = (flatProps [("id", .str "")] ps).2.2 := by
  unfold flatSaves flatBase
  rw [sealFlat_saves]

/-- The `Base` branch of the value mirror, in terms of the level
functions: the sealed record, the level's events shifted one level, and
the level's saves plus — when detached — the level's own save. -/
theorem flatValue_base (cs : List (String × Value)) (d : Bool) :
    flatValue (.base cs) d =
      (flatRec cs, shift1 (flatEvents cs),
       flatSaves cs ++ (if d then [(flatHash cs, flatRec cs)] else [])) := by
  unfold flatValue
  dsimp only
  rw [sealFlat_events, sealFlat_saves, flatHash_sf, ← flatRec_eq, ← flatEvents_eq,
    ← flatSaves_eq]

theorem alGet_alSet_ne {α : Type} {k' k : String} (h : k' ≠ k) :
    ∀ (es : List (String × α)) (v : α), alGet (alSet es k v) k' = alGet es k'
  | [], v => by
      have hne : ¬ k = k' := fun hh => h hh.symm
      simp only [alSet, alGet]
      rw [if_neg hne]
  | (k0, v0) :: r, v => by
      by_cases h0 : k0 = k
      · rw [h0, alSet_head_eq]
        have hne : ¬ k = k' := fun hh => h hh.symm
        simp only [alGet]
        rw [if_neg hne, if_neg hne]
      · rw [alSet_cons_ne h0]
        simp only [alGet]
        by_cases h1 : k0 = k'
        · rw [if_pos h1, if_pos h1]
        · rw [if_neg h1, if_neg h1]
          exact alGet_alSet_ne h r v

/-- The `id` stored in a sealed record is the level's hash. -/
theorem getIdStr_flatRec (cs : List (String × Value)) :
    getIdStr (flatRec cs) = flatHash cs := by
  rw [flatRec_eq, sealFlat_rec, flatHash_sf]
  by_cases he : (flatProps [("id", .str "")] cs).2.1.isEmpty = true
  · rw [if_pos he]
    simp only [getIdStr, alGet_alSet_self]
  · rw [if_neg he]
    simp only [getIdStr]
    rw [alGet_alSet_ne (by decide), alGet_alSet_self]

/-- Property names that do not collide with the record's `id` slot. -/
def propOk (prop : String) : Bool := !(prop == "id")

mutual

/-- The decomposable class of the amended round-trip law: every
surviving property (not falsy, not `__`-prefixed) is either a primitive
or an `@`-detached `Base` child that is recursively good with distinct
property names; no property is named `id`, and no collections or nulls
survive.  Falsy and `__`-prefixed properties are allowed — they are
dropped, which is exactly the round-trip law's `modulo` clause. -/
def goodProps : List (String × Value) → Bool
  | [] => true
  | (prop, v) :: rest =>
      (if falsy v || pyStartsWith prop "__" then true else goodEntry prop v) && goodProps rest

/-- Check of one surviving property. -/
def goodEntry (prop : String) : Value → Bool
  | .int _ => propOk prop
  | .str _ => propOk prop
  | .bool _ => propOk prop
  | .base cs => propOk prop && pyStartsWith prop "@" &&
      (decide ((cs.map Prod.fst).Nodup) && goodProps cs)
  | .list _ => false
  | .dict _ => false
  | .null => false

end

/-- A good object: distinct property names, good properties. -/
def goodBase (ps : List (String × Value)) : Bool :=
  decide ((ps.map Prod.fst).Nodup) && goodProps ps

/-- The serialized form a surviving good property's value takes in the
record: detached children are replaced by their reference marker. -/
def tailVal : Value → Value
  | .base cs => refMarker (flatHash cs)
  | v => v

/-- The record tail a good object produces: its surviving properties in
order, with values serialized. -/
def goodTail : List (String × Value) → List (String × Value)
  | [] => []
  | (prop, v) :: rest =>
      if falsy v || pyStartsWith prop "__" then goodTail rest
      else (prop, tailVal v) :: goodTail rest

/-- The saves one surviving good value contributes. -/
def saveVal : Value → List (String × Value)
  | .base cs => flatSaves cs ++ [(flatHash cs, flatRec cs)]
  | _ => []

/-- The logical saves of a good object's property loop. -/
def goodSaves : List (String × Value) → List (String × Value)
  | [] => []
  | (prop, v) :: rest =>
      if falsy v || pyStartsWith prop "__" then goodSaves rest
      else saveVal v ++ goodSaves rest

mutual

/-- The accumulator `recompose_props` builds back from a good object's
record tail: each surviving property set in order, detached children
recursively recomposed. -/
def goodFold : List (String × Value) → List (String × Value) → List (String × Value)
  | acc, [] => acc
  | acc, (prop, v) :: rest =>
      if falsy v || pyStartsWith prop "__" then goodFold acc rest
      else goodFold (alSet acc prop (goodOutV v)) rest

/-- The object recomposition rebuilds from a good value: primitives
unchanged; a detached child becomes a `Base` seeded with
`totalChildrenCount` (when its record carries a closure) and its `id`,
followed by its recomposed surviving properties. -/
def goodOutV : Value → Value
  | .base cs =>
      .base (goodFold (alSet (if (flatEvents cs).isEmpty then ([] : List (String × Value))
        else [("totalChildrenCount",
          Value.int ((mergeMin [] (flatEvents cs)).length : Int))])
        "id" (.str (flatHash cs))) cs)
  | v => v

end

mutual

/-- Fuel sufficient for `recompose_props` on a good object's record
tail. -/
def needP : List (String × Value) → Nat
  | [] => 1
  | (prop, v) :: rest =>
      if falsy v || pyStartsWith prop "__" then needP rest
      else 1 + max (needV v) (needP rest)

/-- Fuel sufficient for `recompose_base` on a good value's record. -/
def needV : Value → Nat
  | .base cs => 2 + needP cs
  | _ => 0

end

theorem propOk_ne {p : String} (h : propOk p = true) : p ≠ "id" := by
  intro he
  rw [he] at h
  exact absurd h (by decide)

theorem goodEntry_propOk {prop : String} : ∀ {v : Value},
    goodEntry prop v = true → propOk prop = true
  | .int _, h => h
  | .str _, h => h
  | .bool _, h => h
  | .base _, h => by
      simp only [goodEntry, Bool.and_eq_true] at h
      exact h.1.1
  | .list _, h => nomatch h
  | .dict _, h => nomatch h
  | .null, h => nomatch h

/-- Keys of a good record tail: never `__`-prefixed and never `id`. -/
theorem goodTail_keys : ∀ (ps : List (String × Value)), goodProps ps = true →
    ∀ e ∈ goodTail ps, pyStartsWith e.1 "__" = false ∧ e.1 ≠ "id"
  | [], _, e, he => absurd he (List.not_mem_nil e)
  | (prop, v) :: rest, hg, e, he => by
      simp only [goodProps, Bool.and_eq_true] at hg
      obtain ⟨hh, hrest⟩ := hg
      by_cases hskip : (falsy v || pyStartsWith prop "__") = true
      · rw [goodTail, if_pos hskip] at he
        exact goodTail_keys rest hrest e he
      · have hf : (falsy v || pyStartsWith prop "__") = false := by
          revert hskip
          cases falsy v || pyStartsWith prop "__" <;> simp
        rw [goodTail, if_neg hskip] at he
        rw [hf] at hh
        simp only [Bool.false_eq_true, if_false] at hh
        rcases List.mem_cons.mp he with h | h
        · rw [h]
          exact ⟨(Bool.or_eq_false_iff.mp hf).2, propOk_ne (goodEntry_propOk hh)⟩
        · exact goodTail_keys rest hrest e h

theorem grec_set (t : List (String × Value)) (prop : String) (hpid : prop ≠ "id")
    (hfree : ∀ e ∈ t, e.1 ≠ prop) (w : Value) :
    alSet (("id", Value.str "") :: t) prop w = ("id", Value.str "") :: (t ++ [(prop, w)]) := by
  rw [alSet_cons_ne (fun hh0 => hpid hh0.symm), alSet_append_of_none t prop w hfree]

theorem grec_disj {rest t : List (String × Value)} {prop : String}
    (hnotin : prop ∉ rest.map Prod.fst)
    (hdisjr : ∀ p ∈ rest, ∀ e ∈ t, e.1 ≠ p.1) (w : Value) :
    ∀ p ∈ rest, ∀ e ∈ t ++ [(prop, w)], e.1 ≠ p.1 := by
  intro p hp e he
  rcases List.mem_append.mp he with h | h
  · exact hdisjr p hp e h
  · rw [List.mem_singleton.mp h]
    intro hpe
    exact hnotin (by
      rw [show prop = p.1 from hpe]
      exact List.mem_map_of_mem Prod.fst hp)

theorem good_record_aux : ∀ (ps t : List (String × Value)),
    goodProps ps = true → (ps.map Prod.fst).Nodup →
    (∀ p ∈ ps, ∀ e ∈ t, e.1 ≠ p.1) →
    (flatProps (("id", .str "") :: t) ps).1 = ("id", .str "") :: (t ++ goodTail ps) ∧
    (flatProps (("id", .str "") :: t) ps).2.2 = goodSaves ps
  | [], t, _, _, _ => by
      refine ⟨?_, rfl⟩
      show ("id", Value.str "") :: t = _
      rw [goodTail, List.append_nil]
  | (prop, .int n) :: rest, t, hg, hnd, hdisj => by
      simp only [goodProps, Bool.and_eq_true] at hg
      obtain ⟨hh, hrest⟩ := hg
      simp only [List.map_cons, List.nodup_cons] at hnd
      obtain ⟨hnotin, hndr⟩ := hnd
      have hdisjr : ∀ p ∈ rest, ∀ e ∈ t, e.1 ≠ p.1 :=
        fun p hp e he => hdisj p (List.mem_cons_of_mem _ hp) e he
      by_cases hskip : (falsy (.int n) || pyStartsWith prop "__") = true
      · simp only [flatProps, hskip, if_true, goodTail, goodSaves]
        exact good_record_aux rest t hrest hndr hdisjr
      · have hf : (falsy (.int n) || pyStartsWith prop "__") = false := by
          revert hskip
          cases falsy (.int n) || pyStartsWith prop "__" <;> simp
        rw [hf] at hh
        simp only [Bool.false_eq_true, if_false] at hh
        simp only [flatProps, hf, Bool.false_eq_true, if_false]
        rw [grec_set t prop (propOk_ne (goodEntry_propOk hh))
          (fun e he => hdisj (prop, Value.int n) (List.mem_cons_self _ _) e he)]
        obtain ⟨ih1, ih2⟩ := good_record_aux rest (t ++ [(prop, Value.int n)])
          hrest hndr (grec_disj hnotin hdisjr _)
        simp only [goodTail, goodSaves, hf, Bool.false_eq_true, if_false, tailVal, saveVal]
        refine ⟨?_, ?_⟩
        · rw [ih1, ← List.append_cons]
        · rw [ih2, List.nil_append]
  | (prop, .str sv) :: rest, t, hg, hnd, hdisj => by
      simp only [goodProps, Bool.and_eq_true] at hg
      obtain ⟨hh, hrest⟩ := hg
      simp only [List.map_cons, List.nodup_cons] at hnd
      obtain ⟨hnotin, hndr⟩ := hnd
      have hdisjr : ∀ p ∈ rest, ∀ e ∈ t, e.1 ≠ p.1 :=
        fun p hp e he => hdisj p (List.mem_cons_of_mem _ hp) e he
      by_cases hskip : (falsy (.str sv) || pyStartsWith prop "__") = true
      · simp only [flatProps, hskip, if_true, goodTail, goodSaves]
        exact good_record_aux rest t hrest hndr hdisjr
      · have hf : (falsy (.str sv) || pyStartsWith prop "__") = false := by
          revert hskip
          cases falsy (.str sv) || pyStartsWith prop "__" <;> simp
        rw [hf] at hh
        simp only [Bool.false_eq_true, if_false] at hh
        simp only [flatProps, hf, Bool.false_eq_true, if_false]
        rw [grec_set t prop (propOk_ne (goodEntry_propOk hh))
          (fun e he => hdisj (prop, Value.str sv) (List.mem_cons_self _ _) e he)]
        obtain ⟨ih1, ih2⟩ := good_record_aux rest (t ++ [(prop, Value.str sv)])
          hrest hndr (grec_disj hnotin hdisjr _)
        simp only [goodTail, goodSaves, hf, Bool.false_eq_true, if_false, tailVal, saveVal]
        refine ⟨?_, ?_⟩
        · rw [ih1, ← List.append_cons]
        · rw [ih2, List.nil_append]
  | (prop, .bool b) :: rest, t, hg, hnd, hdisj => by
      simp only [goodProps, Bool.and_eq_true] at hg
      obtain ⟨hh, hrest⟩ := hg
      simp only [List.map_cons, List.nodup_cons] at hnd
      obtain ⟨hnotin, hndr⟩ := hnd
      have hdisjr : ∀ p ∈ rest, ∀ e ∈ t, e.1 ≠ p.1 :=
        fun p hp e he => hdisj p (List.mem_cons_of_mem _ hp) e he
      by_cases hskip : (falsy (.bool b) || pyStartsWith prop "__") = true
      · simp only [flatProps, hskip, if_true, goodTail, goodSaves]
        exact good_record_aux rest t hrest hndr hdisjr
      · have hf : (falsy (.bool b) || pyStartsWith prop "__") = false := by
          revert hskip
          cases falsy (.bool b) || pyStartsWith prop "__" <;> simp
        rw [hf] at hh
        simp only [Bool.false_eq_true, if_false] at hh
        simp only [flatProps, hf, Bool.false_eq_true, if_false]
        rw [grec_set t prop (propOk_ne (goodEntry_propOk hh))
          (fun e he => hdisj (prop, Value.bool b) (List.mem_cons_self _ _) e he)]
        obtain ⟨ih1, ih2⟩ := good_record_aux rest (t ++ [(prop, Value.bool b)])
          hrest hndr (grec_disj hnotin hdisjr _)
        simp only [goodTail, goodSaves, hf, Bool.false_eq_true, if_false, tailVal, saveVal]
        refine ⟨?_, ?_⟩
        · rw [ih1, ← List.append_cons]
        · rw [ih2, List.nil_append]
  | (prop, .null) :: rest, t, hg, hnd, hdisj => by
      simp only [goodProps, Bool.and_eq_true] at hg
      obtain ⟨_, hrest⟩ := hg
      simp only [List.map_cons, List.nodup_cons] at hnd
      obtain ⟨_, hndr⟩ := hnd
      have hdisjr : ∀ p ∈ rest, ∀ e ∈ t, e.1 ≠ p.1 :=
        fun p hp e he => hdisj p (List.mem_cons_of_mem _ hp) e he
      have hskip : (falsy .null || pyStartsWith prop "__") = true := by simp [falsy]
      simp only [flatProps, hskip, if_true, goodTail, goodSaves]
      exact good_record_aux rest t hrest hndr hdisjr
  | (prop, .list xs) :: rest, t, hg, hnd, hdisj => by
      simp only [goodProps, Bool.and_eq_true] at hg
      obtain ⟨hh, hrest⟩ := hg
      simp only [List.map_cons, List.nodup_cons] at hnd
      obtain ⟨_, hndr⟩ := hnd
      have hdisjr : ∀ p ∈ rest, ∀ e ∈ t, e.1 ≠ p.1 :=
        fun p hp e he => hdisj p (List.mem_cons_of_mem _ hp) e he
      by_cases hskip : (falsy (.list xs) || pyStartsWith prop "__") = true
      · simp only [flatProps, hskip, if_true, goodTail, goodSaves]
        exact good_record_aux rest t hrest hndr hdisjr
      · have hf : (falsy (.list xs) || pyStartsWith prop "__") = false := by
          revert hskip
          cases falsy (.list xs) || pyStartsWith prop "__" <;> simp
        rw [hf] at hh
        simp only [Bool.false_eq_true, if_false] at hh
        simp only [goodEntry] at hh
        exact absurd hh Bool.false_ne_true
  | (prop, .dict es) :: rest, t, hg, hnd, hdisj => by
      simp only [goodProps, Bool.and_eq_true] at hg
      obtain ⟨hh, hrest⟩ := hg
      simp only [List.map_cons, List.nodup_cons] at hnd
      obtain ⟨_, hndr⟩ := hnd
      have hdisjr : ∀ p ∈ rest, ∀ e ∈ t, e.1 ≠ p.1 :=
        fun p hp e he => hdisj p (List.mem_cons_of_mem _ hp) e he
      by_cases hskip : (falsy (.dict es) || pyStartsWith prop "__") = true
      · simp only [flatProps, hskip, if_true, goodTail, goodSaves]
        exact good_record_aux rest t hrest hndr hdisjr
      · have hf : (falsy (.dict es) || pyStartsWith prop "__") = false := by
          revert hskip
          cases falsy (.dict es) || pyStartsWith prop "__" <;> simp
        rw [hf] at hh
        simp only [Bool.false_eq_true, if_false] at hh
        simp only [goodEntry] at hh
        exact absurd hh Bool.false_ne_true
  | (prop, .base cs) :: rest, t, hg, hnd, hdisj => by
      simp only [goodProps, Bool.and_eq_true] at hg
      obtain ⟨hh, hrest⟩ := hg
      simp only [List.map_cons, List.nodup_cons] at hnd
      obtain ⟨hnotin, hndr⟩ := hnd
      have hdisjr : ∀ p ∈ rest, ∀ e ∈ t, e.1 ≠ p.1 :=
        fun p hp e he => hdisj p (List.mem_cons_of_mem _ hp) e he
      by_cases hskip : (falsy (.base cs) || pyStartsWith prop "__") = true
      · simp only [flatProps, hskip, if_true, goodTail, goodSaves]
        exact good_record_aux rest t hrest hndr hdisjr
      · have hf : (falsy (.base cs) || pyStartsWith prop "__") = false := by
          revert hskip
          cases falsy (.base cs) || pyStartsWith prop "__" <;> simp
        rw [hf] at hh
        simp only [Bool.false_eq_true, if_false] at hh
        have hpok : propOk prop = true := goodEntry_propOk hh
        simp only [goodEntry, Bool.and_eq_true] at hh
        obtain ⟨⟨_, hdet⟩, _⟩ := hh
        simp only [flatProps, hf, Bool.false_eq_true, if_false, hdet, if_true]
        rw [flatValue_base]
        simp only [if_true]
        rw [getIdStr_flatRec]
        rw [grec_set t prop (propOk_ne hpok)
          (fun e he => hdisj (prop, Value.base cs) (List.mem_cons_self _ _) e he)]
        obtain ⟨ih1, ih2⟩ := good_record_aux rest (t ++ [(prop, refMarker (flatHash cs))])
          hrest hndr (grec_disj hnotin hdisjr _)
        simp only [goodTail, goodSaves, hf, Bool.false_eq_true, if_false, tailVal, saveVal]
        refine ⟨?_, ?_⟩
        · rw [ih1, ← List.append_cons]
        · rw [ih2, List.append_assoc]

/-- The record a good object decomposes to: the filled `id`, the
surviving properties serialized in order (detached children as reference
markers), and — exactly when detach events were recorded — a trailing
`__closure` field; the logical saves are the detached descendants'
records, childmost first. -/
theorem good_record (ps : List (String × Value)) (hg : goodBase ps = true) :
    flatRec ps = .dict ((("id", .str (flatHash ps)) :: goodTail ps) ++
      (if (flatEvents ps).isEmpty then [] else
        [("__closure", .dict ((mergeMin [] (flatEvents ps)).map
          (fun e => (e.1, Value.int (e.2 : Int)))))])) ∧
    flatSaves ps = goodSaves ps := by
  simp only [goodBase, Bool.and_eq_true] at hg
  obtain ⟨hnd, hgp⟩ := hg
  obtain ⟨h1, h2⟩ := good_record_aux ps [] hgp (of_decide_eq_true hnd)
    (fun p _ e he => absurd he (List.not_mem_nil e))
  rw [List.nil_append] at h1
  constructor
  · rw [flatRec_eq, sealFlat_rec, flatHash_sf, ← flatEvents_eq, h1, alSet_head_eq]
    by_cases he : (flatEvents ps).isEmpty = true
    · rw [if_pos he, if_pos he, List.append_nil]
    · rw [if_neg he, if_neg he]
      rw [alSet_cons_ne (by decide), alSet_append_of_none _ _ _ (by
        intro e hemem hcl
        have := (goodTail_keys ps hgp e hemem).1
        rw [hcl] at this
        exact absurd this (by decide))]
      rfl
  · rw [flatSaves_eq, h2]

theorem one_le_needP : ∀ (ps : List (String × Value)), 1 ≤ needP ps
  | [] => le_refl 1
  | (prop, v) :: rest => by
      by_cases hskip : (falsy v || pyStartsWith prop "__") = true
      · rw [needP, if_pos hskip]
        exact one_le_needP rest
      · rw [needP, if_neg hskip]
        exact Nat.le_add_right 1 _

theorem alGet_append_last {α : Type} : ∀ (l : List (String × α)) (k : String) (v : α),
    (∀ e ∈ l, e.1 ≠ k) → alGet (l ++ [(k, v)]) k = some v
  | [], k, v, _ => by simp [alGet]
  | (k0, v0) :: r, k, v, h => by
      have h0 : k0 ≠ k := h (k0, v0) (List.mem_cons_self _ _)
      show alGet ((k0, v0) :: (r ++ [(k, v)])) k = some v
      simp only [alGet]
      rw [if_neg h0]
      exact alGet_append_last r k v (fun e he => h e (List.mem_cons_of_mem _ he))

theorem alPop_append_last {α : Type} : ∀ (l : List (String × α)) (k : String) (v : α),
    (∀ e ∈ l, e.1 ≠ k) → alPop (l ++ [(k, v)]) k = l
  | [], k, v, _ => by simp [alPop]
  | (k0, v0) :: r, k, v, h => by
      have h0 : k0 ≠ k := h (k0, v0) (List.mem_cons_self _ _)
      show alPop ((k0, v0) :: (r ++ [(k, v)])) k = _
      simp only [alPop]
      rw [if_neg h0, alPop_append_last r k v (fun e he => h e (List.mem_cons_of_mem _ he))]

theorem goodTail_ne_closure (cs : List (String × Value)) (hgp : goodProps cs = true) :
    ∀ e ∈ goodTail cs, e.1 ≠ "__closure" := by
  intro e he hcl
  have h1 := (goodTail_keys cs hgp e he).1
  rw [hcl] at h1
  exact absurd h1 (by decide)

/-- One step of the property loop at a reference-marker value: the
transport is consulted for the referenced id. -/
theorem props_marker_step (rt : ReadTransport) (fuel : Nat)
    (acc tl : List (String × Value)) (prop H : String) :
    recompose_props (some rt) (fuel + 1) acc ((prop, refMarker H) :: tl) =
      (match rt.get H with
       | none => (.error (.speckle (refErrMsg H rt.name)), [H])
       | some child =>
           let cr := recompose_base (some rt) fuel child
           match cr.1 with
           | .error e => (.error e, H :: cr.2)
           | .ok co =>
               let rr := recompose_props (some rt) fuel
                 (alSet acc prop (co.getD .null)) tl
               (rr.1, H :: cr.2 ++ rr.2)) := rfl

set_option maxHeartbeats 4000000 in
mutual

theorem good_props_rec (rt : ReadTransport) : ∀ (fuel : Nat) (ps acc : List (String × Value)),
    goodProps ps = true → needP ps ≤ fuel →
    (∀ p ∈ goodSaves ps, rt.get p.1 = some p.2) →
    (recompose_props (some rt) fuel acc (goodTail ps)).1 = .ok (some (.base (goodFold acc ps)))
  | 0, ps, acc, _, hfuel, _ => by
      have h1 := one_le_needP ps
      omega
  | fuel + 1, [], acc, _, _, _ => rfl
  | fuel + 1, (prop, .int n) :: rest, acc, hg, hfuel, hsave => by
      simp only [goodProps, Bool.and_eq_true] at hg
      obtain ⟨hh, hrest⟩ := hg
      by_cases hskip : (falsy (.int n) || pyStartsWith prop "__") = true
      · simp only [needP, hskip, if_true] at hfuel
        simp only [goodSaves, hskip, if_true] at hsave
        simp only [goodTail, goodFold, hskip, if_true]
        exact good_props_rec rt (fuel + 1) rest acc hrest hfuel hsave
      · have hf : (falsy (.int n) || pyStartsWith prop "__") = false := by
          revert hskip
          cases falsy (.int n) || pyStartsWith prop "__" <;> simp
        simp only [needP, hf, Bool.false_eq_true, if_false] at hfuel
        simp only [goodSaves, hf, Bool.false_eq_true, if_false, saveVal] at hsave
        simp only [goodTail, goodFold, hf, Bool.false_eq_true, if_false, tailVal, goodOutV]
        have hstep : recompose_props (some rt) (fuel + 1) acc
            ((prop, Value.int n) :: goodTail rest) =
            recompose_props (some rt) fuel (alSet acc prop (.int n)) (goodTail rest) := rfl
        rw [hstep]
        have hf2 : needP rest ≤ fuel := by
          have h2 := le_max_right (needV (.int n)) (needP rest)
          omega
        exact good_props_rec rt fuel rest (alSet acc prop (.int n)) hrest hf2
          (fun p hp => hsave p (List.mem_append_right _ hp))
  | fuel + 1, (prop, .str sv) :: rest, acc, hg, hfuel, hsave => by
      simp only [goodProps, Bool.and_eq_true] at hg
      obtain ⟨hh, hrest⟩ := hg
      by_cases hskip : (falsy (.str sv) || pyStartsWith prop "__") = true
      · simp only [needP, hskip, if_true] at hfuel
        simp only [goodSaves, hskip, if_true] at hsave
        simp only [goodTail, goodFold, hskip, if_true]
        exact good_props_rec rt (fuel + 1) rest acc hrest hfuel hsave
      · have hf : (falsy (.str sv) || pyStartsWith prop "__") = false := by
          revert hskip
          cases falsy (.str sv) || pyStartsWith prop "__" <;> simp
        simp only [needP, hf, Bool.false_eq_true, if_false] at hfuel
        simp only [goodSaves, hf, Bool.false_eq_true, if_false, saveVal] at hsave
        simp only [goodTail, goodFold, hf, Bool.false_eq_true, if_false, tailVal, goodOutV]
        have hstep : recompose_props (some rt) (fuel + 1) acc
            ((prop, Value.str sv) :: goodTail rest) =
            recompose_props (some rt) fuel (alSet acc prop (.str sv)) (goodTail rest) := rfl
        rw [hstep]
        have hf2 : needP rest ≤ fuel := by
          have h2 := le_max_right (needV (.str sv)) (needP rest)
          omega
        exact good_props_rec rt fuel rest (alSet acc prop (.str sv)) hrest hf2
          (fun p hp => hsave p (List.mem_append_right _ hp))
  | fuel + 1, (prop, .bool b) :: rest, acc, hg, hfuel, hsave => by
      simp only [goodProps, Bool.and_eq_true] at hg
      obtain ⟨hh, hrest⟩ := hg
      by_cases hskip : (falsy (.bool b) || pyStartsWith prop "__") = true
      · simp only [needP, hskip, if_true] at hfuel
        simp only [goodSaves, hskip, if_true] at hsave
        simp only [goodTail, goodFold, hskip, if_true]
        exact good_props_rec rt (fuel + 1) rest acc hrest hfuel hsave
      · have hf : (falsy (.bool b) || pyStartsWith prop "__") = false := by
          revert hskip
          cases falsy (.bool b) || pyStartsWith prop "__" <;> simp
        simp only [needP, hf, Bool.false_eq_true, if_false] at hfuel
        simp only [goodSaves, hf, Bool.false_eq_true, if_false, saveVal] at hsave
        simp only [goodTail, goodFold, hf, Bool.false_eq_true, if_false, tailVal, goodOutV]
        have hstep : recompose_props (some rt) (fuel + 1) acc
            ((prop, Value.bool b) :: goodTail rest) =
            recompose_props (some rt) fuel (alSet acc prop (.bool b)) (goodTail rest) := rfl
        rw [hstep]
        have hf2 : needP rest ≤ fuel := by
          have h2 := le_max_right (needV (.bool b)) (needP rest)
          omega
        exact good_props_rec rt fuel rest (alSet acc prop (.bool b)) hrest hf2
          (fun p hp => hsave p (List.mem_append_right _ hp))
  | fuel + 1, (prop, .null) :: rest, acc, hg, hfuel, hsave => by
      simp only [goodProps, Bool.and_eq_true] at hg
      obtain ⟨_, hrest⟩ := hg
      have hskip : (falsy .null || pyStartsWith prop "__") = true := by simp [falsy]
      simp only [needP, hskip, if_true] at hfuel
      simp only [goodSaves, hskip, if_true] at hsave
      simp only [goodTail, goodFold, hskip, if_true]
      exact good_props_rec rt (fuel + 1) rest acc hrest hfuel hsave
  | fuel + 1, (prop, .list xs) :: rest, acc, hg, hfuel, hsave => by
      simp only [goodProps, Bool.and_eq_true] at hg
      obtain ⟨hh, hrest⟩ := hg
      by_cases hskip : (falsy (.list xs) || pyStartsWith prop "__") = true
      · simp only [needP, hskip, if_true] at hfuel
        simp only [goodSaves, hskip, if_true] at hsave
        simp only [goodTail, goodFold, hskip, if_true]
        exact good_props_rec rt (fuel + 1) rest acc hrest hfuel hsave
      · have hf : (falsy (.list xs) || pyStartsWith prop "__") = false := by
          revert hskip
          cases falsy (.list xs) || pyStartsWith prop "__" <;> simp
        rw [hf] at hh
        simp only [Bool.false_eq_true, if_false] at hh
        simp only [goodEntry] at hh
        exact absurd hh Bool.false_ne_true
  | fuel + 1, (prop, .dict es) :: rest, acc, hg, hfuel, hsave => by
      simp only [goodProps, Bool.and_eq_true] at hg
      obtain ⟨hh, hrest⟩ := hg
      by_cases hskip : (falsy (.dict es) || pyStartsWith prop "__") = true
      · simp only [needP, hskip, if_true] at hfuel
        simp only [goodSaves, hskip, if_true] at hsave
        simp only [goodTail, goodFold, hskip, if_true]
        exact good_props_rec rt (fuel + 1) rest acc hrest hfuel hsave
      · have hf : (falsy (.dict es) || pyStartsWith prop "__") = false := by
          revert hskip
          cases falsy (.dict es) || pyStartsWith prop "__" <;> simp
        rw [hf] at hh
        simp only [Bool.false_eq_true, if_false] at hh
        simp only [goodEntry] at hh
        exact absurd hh Bool.false_ne_true
  | fuel + 1, (prop, .base cs) :: rest, acc, hg, hfuel, hsave => by
      simp only [goodProps, Bool.and_eq_true] at hg
      obtain ⟨hh, hrest⟩ := hg
      by_cases hskip : (falsy (.base cs) || pyStartsWith prop "__") = true
      · simp only [needP, hskip, if_true] at hfuel
        simp only [goodSaves, hskip, if_true] at hsave
        simp only [goodTail, goodFold, hskip, if_true]
        exact good_props_rec rt (fuel + 1) rest acc hrest hfuel hsave
      · have hf : (falsy (.base cs) || pyStartsWith prop "__") = false := by
          revert hskip
          cases falsy (.base cs) || pyStartsWith prop "__" <;> simp
        rw [hf] at hh
        simp only [Bool.false_eq_true, if_false] at hh
        simp only [goodEntry, Bool.and_eq_true] at hh
        obtain ⟨⟨_, _⟩, hnd2, hgp2⟩ := hh
        have hgB : goodBase cs = true := by
          rw [goodBase, hnd2, hgp2]
          rfl
        simp only [needP, hf, Bool.false_eq_true, if_false] at hfuel
        simp only [goodSaves, hf, Bool.false_eq_true, if_false, saveVal] at hsave
        simp only [goodTail, goodFold, hf, Bool.false_eq_true, if_false, tailVal]
        obtain ⟨H, hH⟩ : ∃ H, flatHash cs = H := ⟨_, rfl⟩
        obtain ⟨R, hR⟩ : ∃ R, flatRec cs = R := ⟨_, rfl⟩
        obtain ⟨S, hS⟩ : ∃ S, flatSaves cs = S := ⟨_, rfl⟩
        rw [hH, hR, hS] at hsave
        rw [hH]
        have hSg : goodSaves cs = S := by
          rw [← (good_record cs hgB).2]
          exact hS
        have hown : rt.get H = some R :=
          hsave (H, R) (List.mem_append_left _
            (List.mem_append_right _ (List.mem_singleton.mpr rfl)))
        have hcsave : ∀ p ∈ goodSaves cs, rt.get p.1 = some p.2 := by
          intro p hp
          refine hsave p (List.mem_append_left _ (List.mem_append_left _ ?_))
          rw [hSg] at hp
          exact hp
        have hf1 : needV (.base cs) ≤ fuel := by
          have h2 := le_max_left (needV (.base cs)) (needP rest)
          omega
        have hf2 : needP rest ≤ fuel := by
          have h2 := le_max_right (needV (.base cs)) (needP rest)
          omega
        have hcr : (recompose_base (some rt) fuel R).1 =
            .ok (some (goodOutV (.base cs))) := by
          rw [← hR]
          exact good_base_rec rt fuel cs hgB hf1 hcsave
        rw [props_marker_step, hown]
        dsimp only
        rw [hcr]
        dsimp only
        exact good_props_rec rt fuel rest (alSet acc prop (goodOutV (.base cs))) hrest hf2
          (fun p hp => hsave p (List.mem_append_right _ hp))
termination_by fuel ps acc hg hfuel hsave => (fuel, ps.length)

theorem good_base_rec (rt : ReadTransport) : ∀ (fuel : Nat) (cs : List (String × Value)),
    goodBase cs = true → needV (.base cs) ≤ fuel →
    (∀ p ∈ goodSaves cs, rt.get p.1 = some p.2) →
    (recompose_base (some rt) fuel (flatRec cs)).1 = .ok (some (goodOutV (.base cs)))
  | 0, cs, _, hfv, _ => by
      simp only [needV] at hfv
      have h1 := one_le_needP cs
      omega
  | fuel + 1, cs, hgB, hfv, hsaves => by
      simp only [needV] at hfv
      obtain ⟨hrec, _⟩ := good_record cs hgB
      have hgp : goodProps cs = true := by
        rw [goodBase, Bool.and_eq_true] at hgB
        exact hgB.2
      obtain ⟨H, hH⟩ : ∃ H, flatHash cs = H := ⟨_, rfl⟩
      obtain ⟨tl, htl⟩ : ∃ tl, goodTail cs = tl := ⟨_, rfl⟩
      have hk2 := goodTail_keys cs hgp
      have hnecl := goodTail_ne_closure cs hgp
      rw [htl] at hk2 hnecl
      by_cases hcl : (flatEvents cs).isEmpty = true
      · rw [if_pos hcl, List.append_nil, hH, htl] at hrec
        have hkc : hasKey (("id", Value.str H) :: tl) "__closure" = false := by
          rw [hasKey]
          rw [show alGet (("id", Value.str H) :: tl) "__closure" =
              alGet tl "__closure" from by
            simp only [alGet]
            rw [if_neg (by decide)]]
          rw [alGet_not_mem _ _ (by
            intro hmem
            obtain ⟨e, hemem, hekey⟩ := List.mem_map.mp hmem
            exact absurd hekey (hnecl e hemem))]
          rfl
        have hnf : falsy (.dict (("id", Value.str H) :: tl)) = false := rfl
        rw [hrec]
        simp only [recompose_base, hnf, Bool.false_eq_true, if_false, hkc]
        cases fuel with
        | zero =>
            have h1 := one_le_needP cs
            omega
        | succ f2 =>
            have hstep : recompose_props (some rt) (f2 + 1) []
                (("id", Value.str H) :: tl) =
                recompose_props (some rt) f2 (alSet [] "id" (.str H)) tl := rfl
            rw [hstep]
            simp only [goodOutV]
            rw [if_pos hcl, hH]
            have hmain := good_props_rec rt f2 cs (alSet [] "id" (.str H)) hgp
              (by omega) hsaves
            rw [htl] at hmain
            exact hmain
      · rw [if_neg hcl, List.cons_append, hH, htl] at hrec
        obtain ⟨cd, hcd⟩ : ∃ cd, (mergeMin [] (flatEvents cs)).map
            (fun e => (e.1, Value.int (e.2 : Int))) = cd := ⟨_, rfl⟩
        rw [hcd] at hrec
        have halget : alGet (("id", Value.str H) :: (tl ++ [("__closure", Value.dict cd)]))
            "__closure" = some (Value.dict cd) := by
          simp only [alGet]
          rw [if_neg (by decide)]
          exact alGet_append_last _ _ _ hnecl
        have hkc : hasKey (("id", Value.str H) :: (tl ++ [("__closure", Value.dict cd)]))
            "__closure" = true := by
          rw [hasKey, halget]
          rfl
        have hpop : alPop (("id", Value.str H) :: (tl ++ [("__closure", Value.dict cd)]))
            "__closure" = ("id", Value.str H) :: tl := by
          simp only [alPop]
          rw [if_neg (by decide), alPop_append_last _ _ _ hnecl]
        have hnf : falsy (.dict (("id", Value.str H) ::
            (tl ++ [("__closure", Value.dict cd)]))) = false := rfl
        rw [hrec]
        simp only [recompose_base, hnf, Bool.false_eq_true, if_false, hkc, if_true,
          halget, Option.getD, pyLen, hpop]
        cases fuel with
        | zero =>
            have h1 := one_le_needP cs
            omega
        | succ f2 =>
            have hstep : recompose_props (some rt) (f2 + 1)
                [("totalChildrenCount", Value.int (cd.length : Int))]
                (("id", Value.str H) :: tl) =
                recompose_props (some rt) f2
                  (alSet [("totalChildrenCount", Value.int (cd.length : Int))]
                    "id" (.str H)) tl := rfl
            rw [hstep]
            have hlen : (cd.length : Int) = ((mergeMin [] (flatEvents cs)).length : Int) := by
              rw [← hcd, List.length_map]
            rw [hlen]
            simp only [goodOutV]
            rw [if_neg hcl, hH]
            have hmain := good_props_rec rt f2 cs
              (alSet [("totalChildrenCount",
                Value.int ((mergeMin [] (flatEvents cs)).length : Int))]
                "id" (.str H)) hgp (by omega) hsaves
            rw [htl] at hmain
            exact hmain
termination_by fuel cs hg hfv hsaves => (fuel, 0)

end

theorem goodFold_preserve : ∀ (ps acc : List (String × Value)) (k : String),
    (∀ p ∈ ps, p.1 ≠ k) → alGet (goodFold acc ps) k = alGet acc k
  | [], _, _, _ => rfl
  | (p0, v0) :: rest, acc, k, h => by
      by_cases hskip : (falsy v0 || pyStartsWith p0 "__") = true
      · simp only [goodFold, hskip, if_true]
        exact goodFold_preserve rest acc k (fun p hp => h p (List.mem_cons_of_mem _ hp))
      · have hf : (falsy v0 || pyStartsWith p0 "__") = false := by
          revert hskip
          cases falsy v0 || pyStartsWith p0 "__" <;> simp
        simp only [goodFold, hf, Bool.false_eq_true, if_false]
        rw [goodFold_preserve rest _ k (fun p hp => h p (List.mem_cons_of_mem _ hp))]
        exact alGet_alSet_ne (fun he => h (p0, v0) (List.mem_cons_self _ _) he.symm) acc
          (goodOutV v0)

theorem goodFold_mem : ∀ (ps acc : List (String × Value)) (prop : String) (v : Value),
    (prop, v) ∈ ps → (ps.map Prod.fst).Nodup →
    falsy v = false → pyStartsWith prop "__" = false →
    alGet (goodFold acc ps) prop = some (goodOutV v)
  | [], _, prop, v, hmem, _, _, _ => absurd hmem (List.not_mem_nil _)
  | (p0, v0) :: rest, acc, prop, v, hmem, hnd, hfv, hfp => by
      simp only [List.map_cons, List.nodup_cons] at hnd
      obtain ⟨hnotin, hndr⟩ := hnd
      rcases List.mem_cons.mp hmem with he | hmem2
      · injection he with hp hv
        subst hp
        subst hv
        have hskip : (falsy v || pyStartsWith prop "__") = false := by
          rw [hfv, hfp]
          rfl
        simp only [goodFold, hskip, Bool.false_eq_true, if_false]
        rw [goodFold_preserve rest _ prop (by
          intro p hp hpe
          exact hnotin (by
            rw [show prop = p.1 from hpe.symm]
            exact List.mem_map_of_mem Prod.fst hp))]
        exact alGet_alSet_self acc prop (goodOutV v)
      · by_cases hskip : (falsy v0 || pyStartsWith p0 "__") = true
        · simp only [goodFold, hskip, if_true]
          exact goodFold_mem rest acc prop v hmem2 hndr hfv hfp
        · have hf : (falsy v0 || pyStartsWith p0 "__") = false := by
            revert hskip
            cases falsy v0 || pyStartsWith p0 "__" <;> simp
          simp only [goodFold, hf, Bool.false_eq_true, if_false]
          exact goodFold_mem rest (alSet acc p0 (goodOutV v0)) prop v hmem2 hndr hfv hfp

/-- C1, amended: the round-trip law holds on the decomposable class
`goodBase` — objects with distinct property names, none named `id`,
whose surviving values are primitives or `@`-detached good `Base`
children (falsy and `__`-prefixed properties allowed and dropped).  For
any read transport that serves every record written during the
decomposition and sufficient recursion fuel, recomposing the record
yields an object holding exactly `totalChildrenCount`/`id` bookkeeping
plus the surviving properties: each surviving property of the original
is present with content-equal value — primitives unchanged, detached
children recursively recomposed (`goodOutV`).  The general law is
refuted by the counterexample (a dict property whose key is
`referencedId`). -/
theorem c1_roundtrip_amended (rt : ReadTransport) (fuel : Nat) (ps : List (String × Value))
    (hg : goodBase ps = true) (hfuel : needV (.base ps) ≤ fuel)
    (hrt : ∀ p ∈ goodSaves ps, rt.get p.1 = some p.2) :
    (recompose_base (some rt) fuel (flatRec ps)).1 = .ok (some (goodOutV (.base ps))) ∧
    (∃ os, goodOutV (.base ps) = .base os ∧
      ∀ prop v, (prop, v) ∈ ps → falsy v = false → pyStartsWith prop "__" = false →
        alGet os prop = some (goodOutV v)) := by
  refine ⟨good_base_rec rt fuel ps hg hfuel hrt, ?_⟩
  have hnd : (ps.map Prod.fst).Nodup := by
    rw [goodBase, Bool.and_eq_true] at hg
    exact of_decide_eq_true hg.1
  simp only [goodOutV]
  exact ⟨_, rfl, fun prop v hmem hfv hfp => goodFold_mem ps _ prop v hmem hnd hfv hfp⟩

def c1ps : List (String × Value) := [("a", .int 1), ("@b", .base [("x", .int 2)])]

def c1wrt : ReadTransport :=
  ⟨"w", fun h => if h = flatHash [("x", Value.int 2)]
    then some (flatRec [("x", Value.int 2)]) else none⟩

theorem c1_roundtrip_amended_witness :
    (goodBase c1ps = true ∧ needV (.base c1ps) ≤ 8 ∧
     (∀ p ∈ goodSaves c1ps, c1wrt.get p.1 = some p.2)) ∧
    ((recompose_base (some c1wrt) 8 (flatRec c1ps)).1 = .ok (some (goodOutV (.base c1ps))) ∧
     (∃ os, goodOutV (.base c1ps) = .base os ∧
       ∀ prop v, (prop, v) ∈ c1ps → falsy v = false → pyStartsWith prop "__" = false →
         alGet os prop = some (goodOutV v))) :=
  ⟨⟨by decide, by decide, by decide⟩,
   c1_roundtrip_amended c1wrt 8 c1ps (by decide) (by decide) (by decide)⟩
